import Mathlib

/-! Verification development for the pkgcheck pkgdir checks.

This file gives a shallow embedding of the two checks implemented in
src/pkgcheck/checks/pkgdir.py: PkgDirCheck.feed (package directory scan,
files subtree walk, duplicate detection) and EqualVersionsCheck.feed
(adjacent-pair scan for semantically equal versions), together with
theorems settling the specified properties.

External collaborators (the version-identifier library, the git ignore
predicate, the filesystem, and the hashing utility) are modelled as
explicit parameters, mirroring exactly how the Python code consumes them.
Python exceptions raised by filesystem primitives are modelled with
Except values; a generator run is a pair of the findings yielded before
any uncaught exception and an optional uncaught exception. -/

namespace Pkgdir

/-- The findings (result records) that the two checks can yield,
mirroring the result classes of pkgdir.py with their data fields. -/
inductive Finding where
  | ExecutableFile (filename : String)
  | BannedCharacter (filename : String) (chars : List Char)
  | InvalidUTF8 (filename : String) (err : String)
  | MismatchedPN (ebuilds : List String)
  | InvalidPN (ebuilds : List String)
  | UnknownPkgDirEntry (filenames : List String)
  | EmptyFile (filename : String)
  | SizeViolation (filename : String) (size : Nat)
  | DuplicateFiles (files : List String)
  | EqualVersions (versions : List String)
  deriving DecidableEq

/-! ### String ordering, mirroring the code-point order Python uses
for sorted() on strings. -/

/-- Lexicographic strict order on char lists by code point, the order
Python uses to compare strings. -/
def lexLt : List Char → List Char → Bool
  | [], [] => false
  | [], _ :: _ => true
  | _ :: _, [] => false
  | a :: as, b :: bs =>
    if a.toNat < b.toNat then true
    else if b.toNat < a.toNat then false
    else lexLt as bs

/-- Python string strict comparison. -/
def strLt (s t : String) : Bool := lexLt s.toList t.toList

/-- Python string non-strict comparison. -/
def strLe (s t : String) : Bool := ! strLt t s

/-- Insert a string into a sorted list, keeping it sorted. -/
def insertSortedStr (s : String) : List String → List String
  | [] => [s]
  | t :: rest => if strLt s t then s :: t :: rest else t :: insertSortedStr s rest

/-- Model of the Python sorted() builtin on a list of strings. -/
def sortStrs (l : List String) : List String := l.foldr insertSortedStr []

/-! ### Insertion-ordered association lists, modelling the Python
defaultdict(list) instances used by the checks. -/

/-- defaultdict(list) update m[k].append(v): Python dicts keep insertion
order of keys, so a new key goes to the end. -/
def addToGroup (m : List (Nat × List String)) (k : Nat) (v : String) :
    List (Nat × List String) :=
  match m with
  | [] => [(k, [v])]
  | g :: rest => if g.1 = k then (g.1, g.2 ++ [v]) :: rest else g :: addToGroup rest k v

/-- Lookup of the value list stored under a key (empty if absent). -/
def bucket (k : Nat) : List (Nat × List String) → List String
  | [] => []
  | g :: rest => if g.1 = k then g.2 else bucket k rest

/-! ### EqualVersionsCheck.feed

The external version-identifier library is modelled by two fields on each
package: sortKey gives the external total order used by sorted(pkgset),
and atomKey identifies the equivalence class of the versioned atom under
the external equality relation (two packages have equal versioned atoms
exactly when their atomKey fields coincide, matching how a Python dict
keyed by hashable atoms behaves). fullver is the literal version string. -/

structure Pkg where
  sortKey : Nat
  atomKey : Nat
  fullver : String
  deriving DecidableEq

/-- Insertion step of the model of sorted(pkgset). -/
def insertPkg (p : Pkg) : List Pkg → List Pkg
  | [] => [p]
  | q :: rest => if p.sortKey < q.sortKey then p :: q :: rest else q :: insertPkg p rest

/-- Model of sorted(pkgset) under the external total order. -/
def sortPkgs (l : List Pkg) : List Pkg := l.foldr insertPkg []

/-- Python set insertion (membership based, insertion ordered). -/
def setInsert (v : String) (l : List String) : List String :=
  if v ∈ l then l else l ++ [v]

/-- equal_versions[pkg_a.versioned_atom].update([pkg_a.fullver, pkg_b.fullver]). -/
def addVers (m : List (Nat × List String)) (k : Nat) (va vb : String) :
    List (Nat × List String) :=
  match m with
  | [] => [(k, setInsert vb (setInsert va []))]
  | g :: rest =>
    if g.1 = k then (g.1, setInsert vb (setInsert va g.2)) :: rest
    else g :: addVers rest k va vb

/-- The adjacent-pair scan of EqualVersionsCheck.feed over the sorted
package list, building the equal_versions mapping. -/
def evPairs : List Pkg → List (Nat × List String) → List (Nat × List String)
  | a :: b :: rest, m =>
    evPairs (b :: rest)
      (if a.atomKey = b.atomKey then addVers m a.atomKey a.fullver b.fullver else m)
  | _, m => m

/-- EqualVersionsCheck.feed: sort, scan adjacent pairs, then yield one
EqualVersions finding per key of the mapping with the sorted version set. -/
def evFeed (pkgset : List Pkg) : List Finding :=
  (evPairs (sortPkgs pkgset) []).map (fun g => Finding.EqualVersions (sortStrs g.2))

/-- A single package group with two disjoint clusters of equal versions:
versions 1.0 and 1.0-r0 are equal (atomKey 0), and versions 2.0 and
2.0-r0 are equal (atomKey 1); the external order sorts them in the
listed order, so equal elements are adjacent. -/
def exPkgsC1 : List Pkg :=
  [⟨0, 0, "1.0"⟩, ⟨1, 0, "1.0-r0"⟩, ⟨2, 1, "2.0"⟩, ⟨3, 1, "2.0-r0"⟩]

/-! ### PkgDirCheck: character policy -/

/-- Membership in allowed_filename_chars_set: ASCII letters, digits and
the characters period, hyphen, underscore, plus, colon. -/
def allowedChar (c : Char) : Bool :=
  (decide (97 ≤ c.toNat) && decide (c.toNat ≤ 122))
  || (decide (65 ≤ c.toNat) && decide (c.toNat ≤ 90))
  || (decide (48 ≤ c.toNat) && decide (c.toNat ≤ 57))
  || c == '.' || c == '-' || c == '_' || c == '+' || c == ':'

/-- Sorted duplicate-free insertion of a character, by code point. -/
def insChar (c : Char) : List Char → List Char
  | [] => [c]
  | d :: rest =>
    if c = d then d :: rest
    else if c.toNat < d.toNat then c :: d :: rest
    else d :: insChar c rest

/-- sorted(set(filename) - allowed_filename_chars_set): the sorted,
deduplicated characters of the name outside the allowed set. -/
def bannedChars (name : String) : List Char :=
  (name.toList.filter (fun c => ! allowedChar c)).foldr insChar []

/-- The yield of the banned-character check: a finding exactly when the
offending set is non-empty, reporting the given path with the sorted
offending characters of the base name. -/
def bannedFinding (reported name : String) : List Finding :=
  if bannedChars name = [] then []
  else [Finding.BannedCharacter reported (bannedChars name)]

/-! ### Strict UTF-8 validation, modelling bytes.decode() -/

/-- A UTF-8 continuation byte. -/
def isCont (b : Nat) : Bool := decide (128 ≤ b) && decide (b < 192)

/-- Strict UTF-8 validation of a byte sequence, the check performed by
the Python bytes.decode() call (error messages abbreviated). -/
def utf8Decode : List Nat → Except String Unit
  | [] => .ok ()
  | b :: rest =>
    if b < 128 then utf8Decode rest
    else if b < 194 then .error "invalid start byte"
    else if b < 224 then
      match rest with
      | [] => .error "unexpected end of data"
      | c :: r => if isCont c then utf8Decode r else .error "invalid continuation byte"
    else if b < 240 then
      match rest with
      | c :: d :: r =>
        if (isCont c && (decide (b ≠ 224) || decide (160 ≤ c)) &&
            (decide (b ≠ 237) || decide (c < 160))) && isCont d
        then utf8Decode r
        else .error "invalid continuation byte"
      | _ => .error "unexpected end of data"
    else if b < 245 then
      match rest with
      | c :: d :: e :: r =>
        if (isCont c && (decide (b ≠ 240) || decide (144 ≤ c)) &&
            (decide (b ≠ 244) || decide (c < 144))) && isCont d && isCont e
        then utf8Decode r
        else .error "invalid continuation byte"
      | _ => .error "unexpected end of data"
    else .error "invalid start byte"

/-! ### Name helpers -/

/-- The recipe file extension as a character list. -/
def ebuildExt : List Char := ".ebuild".toList

/-- filename.endswith(ebuild_ext). -/
def hasExt (name : String) : Bool := List.isSuffixOf ebuildExt name.toList

/-- filename[:-len(ebuild_ext)]. -/
def stripExt (name : String) : String :=
  String.mk (name.toList.take (name.toList.length - 7))

/-- os.path.basename: the part of a path after the last slash. -/
def basename (s : String) : String :=
  String.mk ((s.toList.reverse.takeWhile (fun c => c != '/')).reverse)

/-! ### The files subtree and os.walk -/

/-- One directory level of the files subtree: an ordered sequence of
file entries and subdirectory entries. File-type information (regular
file, symlink, and so on) lives in the lstat component of the
filesystem model, keyed by path, exactly as os.walk leaves type
inspection to the caller. -/
inductive Tree where
  | nil : Tree
  | file (name : String) (rest : Tree) : Tree
  | dir (name : String) (sub : Tree) (rest : Tree) : Tree

/-- The file names of one directory level (the files component of an
os.walk triple). -/
def filesOf : Tree → List String
  | .nil => []
  | .file n t => n :: filesOf t
  | .dir _ _ t => filesOf t

/-- PkgDirCheck.ignore_dirs: version-control directories pruned from the
walk before descending. -/
def ignoreDirs : List String := ["cvs", ".svn", ".bzr"]

/-- The os.walk triples contributed by the subdirectories of one level,
top-down, pruning ignore_dirs subtrees. -/
def subWalk (rel : String) : Tree → List (String × List String)
  | .nil => []
  | .file _ t => subWalk rel t
  | .dir name sub t =>
    (if ignoreDirs.contains name then []
     else (rel ++ "/" ++ name, filesOf sub) :: subWalk (rel ++ "/" ++ name) sub)
    ++ subWalk rel t

/-- os.walk over the files subtree: the list of (root, files) pairs in
visit order, with roots relative to the package directory. -/
def walkTriples (rel : String) (t : Tree) : List (String × List String) :=
  (rel, filesOf t) :: subWalk rel t

/-! ### The filesystem and configuration models -/

/-- The fields of an os.lstat result the check reads. -/
structure StatInfo where
  mode : Nat
  size : Nat
  deriving DecidableEq

/-- Configuration and external version-identifier library: atomPkg s
models atom_cls(s).package, returning none when atom construction
raises MalformedAtom. -/
structure Cfg where
  pkgPath : String
  category : String
  gentooRepo : Bool
  atomPkg : String → Option String

/-- The filesystem and remaining external collaborators, keyed by path.
Except values model Python exceptions raised by the primitives;
os.path.isfile is total (it swallows OSError and returns False), and
os.walk with the default error handler raises nothing, so the walk
itself is total while per-file lstat calls may fail. -/
structure FS where
  pkgListing : Except String (List String)
  gitignored : String → Bool
  isfile : String → Bool
  statMode : String → Except String Nat
  contents : String → Except String (List Nat)
  filesTree : Option Tree
  lstat : String → Except String StatInfo
  digest : String → Nat

/-- stat.S_ISREG on a mode word. -/
def isReg (m : Nat) : Bool := (m &&& 0o170000) == 0o100000

/-- The executable-bit check of the package directory pass:
os.path.isfile(path) and os.stat(path).st_mode with any of the 0o111
bits set; the os.stat call may raise. -/
def execCheck (fs : FS) (path name : String) : Except String (List Finding) :=
  if fs.isfile path then
    match fs.statMode path with
    | .error e => .error e
    | .ok m => .ok (if m &&& 0o111 ≠ 0 then [Finding.ExecutableFile name] else [])
  else .ok []

/-- The fixed allow-list of expected package directory entries. -/
def allowListNames : List String := ["Manifest", "metadata.xml", "files"]

/-- Processing of one package directory entry: the findings it yields,
its contributions to the mismatched, invalid and unknown accumulators,
and the uncaught exception that aborts the scan, if any. -/
def entryScan (cfg : Cfg) (fs : FS) (name : String) :
    List Finding × List String × List String × List String × Option String :=
  let path := cfg.pkgPath ++ "/" ++ name
  if fs.gitignored path then ([], [], [], [], none)
  else
    match execCheck fs path name with
    | .error e => ([], [], [], [], some e)
    | .ok execF =>
      let bcF := bannedFinding name name
      if hasExt name then
        match fs.contents path with
        | .error e => (execF ++ bcF, [], [], [], some e)
        | .ok bytes =>
          let utf8F :=
            match utf8Decode (bytes.take 8192) with
            | .error msg => [Finding.InvalidUTF8 name msg]
            | .ok _ => []
          let pkgName := basename (stripExt name)
          match cfg.atomPkg ("=" ++ cfg.category ++ "/" ++ pkgName) with
          | some p =>
            if p ≠ basename cfg.pkgPath
            then (execF ++ bcF ++ utf8F, [pkgName], [], [], none)
            else (execF ++ bcF ++ utf8F, [], [], [], none)
          | none => (execF ++ bcF ++ utf8F, [], [pkgName], [], none)
      else
        if cfg.gentooRepo = true ∧ name ∉ allowListNames
        then (execF ++ bcF, [], [], [name], none)
        else (execF ++ bcF, [], [], [], none)

/-- The loop over listdir(pkg_path): findings in yield order, the three
accumulators, and the aborting exception, if any (an abort truncates
the remaining iterations, keeping the findings yielded so far). -/
def scanEntries (cfg : Cfg) (fs : FS) : List String →
    List Finding × List String × List String × List String × Option String
  | [] => ([], [], [], [], none)
  | name :: rest =>
    match entryScan cfg fs name with
    | (f, m, i, u, some e) => (f, m, i, u, some e)
    | (f, m, i, u, none) =>
      match scanEntries cfg fs rest with
      | (f2, m2, i2, u2, e2) => (f ++ f2, m ++ m2, i ++ i2, u ++ u2, e2)

/-- The aggregate findings emitted once after the directory listing. -/
def aggrFindings (mis inv unk : List String) : List Finding :=
  (if mis = [] then [] else [Finding.MismatchedPN (sortStrs mis)])
  ++ (if inv = [] then [] else [Finding.InvalidPN (sortStrs inv)])
  ++ (if unk = [] then [] else [Finding.UnknownPkgDirEntry (sortStrs unk)])

/-- Processing of one file name of one walk triple: its findings, its
contribution to files_by_size (as a recorded path-size pair), and the
aborting exception, if any. Checks run only for regular files. -/
def fileStep (cfg : Cfg) (fs : FS) (rel name : String) :
    List Finding × List (String × Nat) × Option String :=
  let relpath := rel ++ "/" ++ name
  let path := cfg.pkgPath ++ "/" ++ relpath
  if fs.gitignored path then ([], [], none)
  else
    match fs.lstat path with
    | .error e => ([], [], some e)
    | .ok st =>
      if isReg st.mode then
        let execF := if st.mode &&& 0o111 ≠ 0 then [Finding.ExecutableFile relpath] else []
        let sizeF :=
          if st.size = 0 then [Finding.EmptyFile relpath]
          else if 20480 < st.size then [Finding.SizeViolation relpath st.size] else []
        let recd : List (String × Nat) := if st.size = 0 then [] else [(relpath, st.size)]
        (execF ++ sizeF ++ bannedFinding relpath name, recd, none)
      else ([], [], none)

/-- The loop over the files of one walk triple. -/
def processFiles (cfg : Cfg) (fs : FS) (rel : String) : List String →
    List Finding × List (String × Nat) × Option String
  | [] => ([], [], none)
  | name :: rest =>
    match fileStep cfg fs rel name with
    | (f, r, some e) => (f, r, some e)
    | (f, r, none) =>
      match processFiles cfg fs rel rest with
      | (f2, r2, e2) => (f ++ f2, r ++ r2, e2)

/-- The loop over all walk triples of the files subtree. -/
def processTriples (cfg : Cfg) (fs : FS) : List (String × List String) →
    List Finding × List (String × Nat) × Option String
  | [] => ([], [], none)
  | t :: rest =>
    match processFiles cfg fs t.1 t.2 with
    | (f, r, some e) => (f, r, some e)
    | (f, r, none) =>
      match processTriples cfg fs rest with
      | (f2, r2, e2) => (f ++ f2, r ++ r2, e2)

/-- files_by_size: the recorded path-size pairs grouped by size, in
record order. -/
def groupBySize (l : List (String × Nat)) : List (Nat × List String) :=
  l.foldl (fun m e => addToGroup m e.2 e.1) []

/-- The paths handed to the external hashing utility: every member of a
size bucket holding more than one file, in iteration order. -/
def digestCalls (m : List (Nat × List String)) : List String :=
  m.flatMap (fun g => if 1 < g.2.length then g.2 else [])

/-- files_by_digest: the digested paths grouped by the digest of their
absolute path. -/
def filesByDigest (pkgPath : String) (digest : String → Nat)
    (m : List (Nat × List String)) : List (Nat × List String) :=
  (digestCalls m).foldl (fun dm f => addToGroup dm (digest (pkgPath ++ "/" ++ f)) f) []

/-- One DuplicateFiles finding per digest bucket holding more than one
file, carrying the sorted paths. -/
def dupFindings (pkgPath : String) (digest : String → Nat)
    (m : List (Nat × List String)) : List Finding :=
  (filesByDigest pkgPath digest m).flatMap
    (fun g => if 1 < g.2.length then [Finding.DuplicateFiles (sortStrs g.2)] else [])

/-- The walk triples of the files subtree; an absent files directory
walks to nothing, exactly as os.walk on a missing root yields nothing. -/
def treeTriples (fs : FS) : List (String × List String) :=
  match fs.filesTree with
  | none => []
  | some t => walkTriples "files" t

/-- PkgDirCheck.feed: the full generator run. The first component lists
the findings yielded before any uncaught exception, the second is the
uncaught exception, if any. -/
def feed (cfg : Cfg) (fs : FS) : List Finding × Option String :=
  match fs.pkgListing with
  | .error e => ([], some e)
  | .ok entries =>
    match scanEntries cfg fs entries with
    | (f1, _, _, _, some e) => (f1, some e)
    | (f1, mis, inv, unk, none) =>
      match processTriples cfg fs (treeTriples fs) with
      | (f2, _, some e) => (f1 ++ aggrFindings mis inv unk ++ f2, some e)
      | (f2, recs, none) =>
        (f1 ++ aggrFindings mis inv unk ++ f2
          ++ dupFindings cfg.pkgPath fs.digest (groupBySize recs), none)

/-- The third findings group of one package directory entry (the
InvalidUTF8 finding of the bounded decode), spelled out as a standalone
function of the entry for use in the characterization lemmas. -/
def utf8Tail (cfg : Cfg) (fs : FS) (name : String) : List Finding :=
  if hasExt name then
    match fs.contents (cfg.pkgPath ++ "/" ++ name) with
    | .error _ => []
    | .ok bytes =>
      match utf8Decode (bytes.take 8192) with
      | .error msg => [Finding.InvalidUTF8 name msg]
      | .ok _ => []
  else []

/-- Recorded walker output with two disjoint size buckets, used with a
constant digest function to exhibit a digest bucket mixing sizes. -/
def exRecsC5 : List (String × Nat) :=
  [("files/a", 1), ("files/b", 1), ("files/c", 2), ("files/d", 2)]

/-- Recorded walker output with one size collision and one unique size. -/
def exRecsW2 : List (String × Nat) :=
  [("files/a", 5), ("files/b", 5), ("files/c", 7)]

/-- Recorded walker output where all recorded files share one size. -/
def exRecsW5 : List (String × Nat) :=
  [("files/a", 1), ("files/b", 1)]

/-- Shared configuration for concrete runs: package directory r/c/p of
category c and package name p; every recipe name parses to package p. -/
def exCfg : Cfg :=
  { pkgPath := "r/c/p", category := "c", gentooRepo := false,
    atomPkg := fun _ => some "p" }

/-- A filesystem where stat raises EACCES on every entry, with a second
entry whose name violates the character policy. -/
def exFSC3 : FS :=
  { pkgListing := .ok ["bad", "z!!"], gitignored := fun _ => false,
    isfile := fun _ => true, statMode := fun _ => .error "EACCES",
    contents := fun _ => .error "unused", filesTree := none,
    lstat := fun _ => .error "unused", digest := fun _ => 0 }

/-- A filesystem with one recipe whose contents are not valid UTF-8. -/
def exFSC3b : FS :=
  { pkgListing := .ok ["x.ebuild"], gitignored := fun _ => false,
    isfile := fun _ => false, statMode := fun _ => .error "unused",
    contents := fun _ => .ok [255], filesTree := none,
    lstat := fun _ => .error "unused", digest := fun _ => 0 }

/-- A filesystem whose package directory cannot be listed. -/
def exFSC3c : FS :=
  { pkgListing := .error "ENOENT", gitignored := fun _ => false,
    isfile := fun _ => false, statMode := fun _ => .error "unused",
    contents := fun _ => .error "unused", filesTree := none,
    lstat := fun _ => .error "unused", digest := fun _ => 0 }

/-- A filesystem where opening or reading the single recipe entry fails
with EIO. -/
def exFSC3d : FS :=
  { pkgListing := .ok ["x.ebuild"], gitignored := fun _ => false,
    isfile := fun _ => false, statMode := fun _ => .error "unused",
    contents := fun _ => .error "EIO", filesTree := none,
    lstat := fun _ => .error "unused", digest := fun _ => 0 }

/-- A filesystem whose files subtree holds one entry on which os.lstat
fails with EPERM. -/
def exFSC3e : FS :=
  { pkgListing := .ok [], gitignored := fun _ => false,
    isfile := fun _ => false, statMode := fun _ => .error "unused",
    contents := fun _ => .error "unused",
    filesTree := some (Tree.file "boom" Tree.nil),
    lstat := fun _ => .error "EPERM", digest := fun _ => 0 }

/-- A filesystem where the entry ign of the package directory and the
file ign inside files/ are both matched by the ignore predicate, while
every lstat reports an oversized world-writable executable regular file,
so an ignored entry would otherwise violate several rules. -/
def exFSC8 : FS :=
  { pkgListing := .ok [],
    gitignored := fun p => p == "r/c/p/ign" || p == "r/c/p/files/ign",
    isfile := fun _ => true, statMode := fun _ => .ok 0o100755,
    contents := fun _ => .ok [0], filesTree := none,
    lstat := fun _ => .ok ⟨0o100777, 30000⟩, digest := fun _ => 0 }

/-- A filesystem with one recipe entry whose third byte is invalid
UTF-8. -/
def exFSC9 : FS :=
  { pkgListing := .ok ["y.ebuild"], gitignored := fun _ => false,
    isfile := fun _ => false, statMode := fun _ => .error "unused",
    contents := fun _ => .ok [104, 105, 255], filesTree := none,
    lstat := fun _ => .error "unused", digest := fun _ => 0 }

/-- A filesystem whose files subtree holds a single symlink (mode
0o120777 under lstat) with a banned character in its name. -/
def exFSC4 : FS :=
  { pkgListing := .ok [], gitignored := fun _ => false,
    isfile := fun _ => false, statMode := fun _ => .error "unused",
    contents := fun _ => .error "unused",
    filesTree := some (Tree.file "bad!link" Tree.nil),
    lstat := fun _ => .ok ⟨0o120777, 9⟩, digest := fun _ => 0 }

/-- A filesystem with a banned-character entry in the package directory
and a banned-character regular file inside files/. -/
def exFSC4w : FS :=
  { pkgListing := .ok ["ba!d"], gitignored := fun _ => false,
    isfile := fun _ => false, statMode := fun _ => .error "unused",
    contents := fun _ => .error "unused",
    filesTree := some (Tree.file "na?me" Tree.nil),
    lstat := fun _ => .ok ⟨0o100644, 5⟩, digest := fun _ => 0 }

/-- A filesystem whose files subtree holds a single zero-byte regular
file. -/
def exFSC7 : FS :=
  { pkgListing := .ok [], gitignored := fun _ => false,
    isfile := fun _ => false, statMode := fun _ => .error "unused",
    contents := fun _ => .error "unused",
    filesTree := some (Tree.file "zero" Tree.nil),
    lstat := fun _ => .ok ⟨0o100644, 0⟩, digest := fun _ => 0 }

/-- All (root, filename) pairs the walk iterates over, in order. -/
def walkPairs (fs : FS) : List (String × String) :=
  (treeTriples fs).flatMap (fun t => t.2.map (fun n => (t.1, n)))

/-- The package-relative paths of all files the walk iterates over. -/
def walkRelpaths (fs : FS) : List String :=
  (walkPairs fs).map (fun pr => pr.1 ++ "/" ++ pr.2)

/-- The file paths a finding refers to. -/
def mentions : Finding → List String
  | .ExecutableFile f => [f]
  | .BannedCharacter f _ => [f]
  | .InvalidUTF8 f _ => [f]
  | .EmptyFile f => [f]
  | .SizeViolation f _ => [f]
  | .DuplicateFiles l => l
  | _ => []

/-- A filesystem whose files subtree holds one regular file of 20481
bytes. -/
def exFSC6a : FS :=
  { pkgListing := .ok [], gitignored := fun _ => false,
    isfile := fun _ => false, statMode := fun _ => .error "unused",
    contents := fun _ => .error "unused",
    filesTree := some (Tree.file "big" Tree.nil),
    lstat := fun _ => .ok ⟨0o100644, 20481⟩, digest := fun _ => 0 }

/-- A filesystem whose files subtree holds one regular file of exactly
20480 bytes. -/
def exFSC6b : FS :=
  { pkgListing := .ok [], gitignored := fun _ => false,
    isfile := fun _ => false, statMode := fun _ => .error "unused",
    contents := fun _ => .error "unused",
    filesTree := some (Tree.file "big" Tree.nil),
    lstat := fun _ => .ok ⟨0o100644, 20480⟩, digest := fun _ => 0 }

/-- A filesystem whose files subtree holds one executable regular file
next to a symlink and a subdirectory. -/
def exFSC10 : FS :=
  { pkgListing := .ok [], gitignored := fun _ => false,
    isfile := fun _ => false, statMode := fun _ => .error "unused",
    contents := fun _ => .error "unused",
    filesTree := some (Tree.file "f1" (Tree.file "lnk"
      (Tree.dir "sub" (Tree.file "inner" Tree.nil) Tree.nil))),
    lstat := fun p =>
      if p == "r/c/p/files/f1" then .ok ⟨0o100755, 3⟩
      else if p == "r/c/p/files/lnk" then .ok ⟨0o120777, 7⟩
      else .ok ⟨0o100644, 4⟩,
    digest := fun _ => 0 }

/-! ## Theorems -/

theorem lexLt_irrefl : ∀ (a : List Char), lexLt a a = false
  | [] => rfl
  | x :: xs => by
    simp only [lexLt, lt_self_iff_false, if_false]
    exact lexLt_irrefl xs

theorem lexLt_trans : ∀ {a b c : List Char},
    lexLt a b = true → lexLt b c = true → lexLt a c = true
  | [], [], _, h1, _ => by simp [lexLt] at h1
  | [], _ :: _, [], _, h2 => by simp [lexLt] at h2
  | [], _ :: _, _ :: _, _, _ => by simp [lexLt]
  | _ :: _, [], _, h1, _ => by simp [lexLt] at h1
  | _ :: _, _ :: _, [], _, h2 => by simp [lexLt] at h2
  | x :: xs, y :: ys, z :: zs, h1, h2 => by
    simp only [lexLt] at h1 h2 ⊢
    by_cases hxy : x.toNat < y.toNat
    · by_cases hyz : y.toNat < z.toNat
      · have hxz : x.toNat < z.toNat := by omega
        simp [hxz]
      · by_cases hzy : z.toNat < y.toNat
        · simp [hyz, hzy] at h2
        · have hxz : x.toNat < z.toNat := by omega
          simp [hxz]
    · by_cases hyx : y.toNat < x.toNat
      · simp [hxy, hyx] at h1
      · simp only [hxy, hyx, if_false] at h1
        by_cases hyz : y.toNat < z.toNat
        · have hxz : x.toNat < z.toNat := by omega
          simp [hxz]
        · by_cases hzy : z.toNat < y.toNat
          · simp [hyz, hzy] at h2
          · simp only [hyz, hzy, if_false] at h2
            have hxz : ¬ x.toNat < z.toNat := by omega
            have hzx : ¬ z.toNat < x.toNat := by omega
            simp only [hxz, hzx, if_false]
            exact lexLt_trans h1 h2

theorem strLt_asymm {a b : String} (h : strLt a b = true) : strLt b a = false := by
  by_contra hc
  rw [Bool.not_eq_false] at hc
  have := lexLt_trans (a := a.toList) h hc
  rw [lexLt_irrefl] at this
  exact Bool.false_ne_true this

theorem strLt_false_trans {s t b : String}
    (h1 : strLt s t = true) (h2 : strLt b t = false) : strLt b s = false := by
  by_contra hc
  rw [Bool.not_eq_false] at hc
  have := lexLt_trans (a := b.toList) hc h1
  rw [show lexLt b.toList t.toList = strLt b t from rfl, h2] at this
  exact Bool.false_ne_true this

theorem mem_insertSortedStr {x s : String} {l : List String} :
    x ∈ insertSortedStr s l ↔ x = s ∨ x ∈ l := by
  induction l with
  | nil => simp [insertSortedStr]
  | cons t rest ih =>
    simp only [insertSortedStr]
    by_cases h : strLt s t = true
    · rw [if_pos h]
      simp
    · rw [if_neg h]
      simp only [List.mem_cons, ih]
      tauto

theorem pairwise_insertSortedStr {s : String} {l : List String}
    (hl : l.Pairwise (fun a b => strLe a b = true)) :
    (insertSortedStr s l).Pairwise (fun a b => strLe a b = true) := by
  induction l with
  | nil => simp [insertSortedStr]
  | cons t rest ih =>
    rcases List.pairwise_cons.mp hl with ⟨ht, hrest⟩
    simp only [insertSortedStr]
    by_cases h : strLt s t = true
    · rw [if_pos h]
      refine List.pairwise_cons.mpr ⟨?_, hl⟩
      intro b hb
      rcases List.mem_cons.mp hb with rfl | hb
      · simp [strLe, strLt_asymm h]
      · have hb2 := ht b hb
        simp only [strLe, Bool.not_eq_true'] at hb2 ⊢
        exact strLt_false_trans h hb2
    · rw [if_neg h]
      refine List.pairwise_cons.mpr ⟨?_, ih hrest⟩
      intro b hb
      rcases mem_insertSortedStr.mp hb with rfl | hb
      · have h2 : strLt b t = false := by revert h; cases strLt b t <;> simp
        simp [strLe, h2]
      · exact ht b hb

theorem mem_sortStrs {x : String} {l : List String} :
    x ∈ sortStrs l ↔ x ∈ l := by
  induction l with
  | nil => simp [sortStrs]
  | cons t rest ih =>
    simp only [sortStrs, List.foldr_cons] at *
    rw [mem_insertSortedStr, ih]
    simp

theorem sortStrs_pairwise (l : List String) :
    (sortStrs l).Pairwise (fun a b => strLe a b = true) := by
  induction l with
  | nil => simp [sortStrs]
  | cons t rest ih =>
    simpa [sortStrs] using pairwise_insertSortedStr (by simpa [sortStrs] using ih)

theorem bucket_addToGroup (m : List (Nat × List String)) (k k2 : Nat) (v : String) :
    bucket k (addToGroup m k2 v) =
      if k = k2 then bucket k m ++ [v] else bucket k m := by
  induction m with
  | nil =>
    simp only [addToGroup, bucket]
    by_cases h : k = k2
    · subst h; simp [bucket]
    · have h2 : ¬ k2 = k := fun e => h e.symm
      simp [bucket, h, h2]
  | cons g rest ih =>
    by_cases hg : g.1 = k2
    · simp only [addToGroup, if_pos hg]
      by_cases hk : k = k2
      · have hgk : g.1 = k := by rw [hg, hk]
        simp only [bucket, if_pos hgk, if_pos hk]
      · have hgk : ¬ g.1 = k := by rw [hg]; exact fun e => hk e.symm
        simp only [bucket, if_neg hgk, if_neg hk]
    · simp only [addToGroup, if_neg hg]
      by_cases hgk : g.1 = k
      · have hk : ¬ k = k2 := by rw [← hgk]; exact hg
        simp only [bucket, if_pos hgk, if_neg hk]
      · simp only [bucket, if_neg hgk, ih]

theorem keys_addToGroup (m : List (Nat × List String)) (k : Nat) (v : String) :
    (addToGroup m k v).map Prod.fst =
      if k ∈ m.map Prod.fst then m.map Prod.fst else m.map Prod.fst ++ [k] := by
  induction m with
  | nil => simp [addToGroup]
  | cons g rest ih =>
    simp only [addToGroup]
    by_cases hg : g.1 = k
    · simp [hg]
    · have : ¬ k = g.1 := fun e => hg e.symm
      simp only [hg, if_false, List.map_cons, List.mem_cons, this, false_or, ih]
      by_cases hk : k ∈ rest.map Prod.fst <;> simp [hk]

theorem nodup_keys_addToGroup {m : List (Nat × List String)} {k : Nat} {v : String}
    (h : (m.map Prod.fst).Nodup) : ((addToGroup m k v).map Prod.fst).Nodup := by
  rw [keys_addToGroup]
  by_cases hk : k ∈ m.map Prod.fst
  · simpa [hk]
  · simp only [hk, if_false]
    simp [List.nodup_append, h, hk]

theorem bucket_of_mem {m : List (Nat × List String)} {g : Nat × List String}
    (hm : g ∈ m) (hn : (m.map Prod.fst).Nodup) : bucket g.1 m = g.2 := by
  induction m with
  | nil => simp at hm
  | cons h2 rest ih =>
    rcases List.mem_cons.mp hm with rfl | hm
    · simp [bucket]
    · simp only [List.map_cons, List.nodup_cons] at hn
      have hne : ¬ h2.1 = g.1 := by
        intro e
        exact hn.1 (e ▸ List.mem_map_of_mem Prod.fst hm)
      simp [bucket, hne, ih hm hn.2]

theorem mem_of_bucket_ne_nil {m : List (Nat × List String)} {k : Nat}
    (h : bucket k m ≠ []) : (k, bucket k m) ∈ m := by
  induction m with
  | nil => simp [bucket] at h
  | cons g rest ih =>
    by_cases hg : g.1 = k
    · simp only [bucket, if_pos hg]
      rw [← hg]
      exact List.mem_cons.mpr (Or.inl Prod.mk.eta)
    · simp only [bucket, if_neg hg] at h ⊢
      exact List.mem_cons.mpr (Or.inr (ih h))

theorem keys_addVers (m : List (Nat × List String)) (k : Nat) (va vb : String) :
    (addVers m k va vb).map Prod.fst =
      if k ∈ m.map Prod.fst then m.map Prod.fst else m.map Prod.fst ++ [k] := by
  induction m with
  | nil => simp [addVers]
  | cons g rest ih =>
    simp only [addVers]
    by_cases hg : g.1 = k
    · simp [hg]
    · have : ¬ k = g.1 := fun e => hg e.symm
      simp only [hg, if_false, List.map_cons, List.mem_cons, this, false_or, ih]
      by_cases hk : k ∈ rest.map Prod.fst <;> simp [hk]

theorem nodup_keys_addVers {m : List (Nat × List String)} {k : Nat} {va vb : String}
    (h : (m.map Prod.fst).Nodup) : ((addVers m k va vb).map Prod.fst).Nodup := by
  rw [keys_addVers]
  by_cases hk : k ∈ m.map Prod.fst
  · simpa [hk]
  · simp only [hk, if_false]
    simp [List.nodup_append, h, hk]

theorem nodup_keys_evPairs :
    ∀ (l : List Pkg) (m : List (Nat × List String)),
      (m.map Prod.fst).Nodup → ((evPairs l m).map Prod.fst).Nodup
  | [], m, h => h
  | [_], m, h => h
  | a :: b :: rest, m, h => by
    simp only [evPairs]
    by_cases hab : a.atomKey = b.atomKey
    · rw [if_pos hab]
      exact nodup_keys_evPairs (b :: rest) _ (nodup_keys_addVers h)
    · rw [if_neg hab]
      exact nodup_keys_evPairs (b :: rest) m h

theorem setInsert_ne_nil (v : String) (l : List String) : setInsert v l ≠ [] := by
  unfold setInsert
  by_cases h : v ∈ l
  · rw [if_pos h]
    intro e
    rw [e] at h
    simp at h
  · rw [if_neg h]
    simp

theorem vals_addVers {m : List (Nat × List String)} {k : Nat} {va vb : String}
    (h : ∀ g ∈ m, g.2 ≠ []) : ∀ g ∈ addVers m k va vb, g.2 ≠ [] := by
  induction m with
  | nil =>
    intro g hg
    simp only [addVers, List.mem_singleton] at hg
    rw [hg]
    exact setInsert_ne_nil _ _
  | cons g2 rest ih =>
    intro g hg
    simp only [addVers] at hg
    by_cases hk : g2.1 = k
    · rw [if_pos hk] at hg
      rcases List.mem_cons.mp hg with rfl | hg
      · exact setInsert_ne_nil _ _
      · exact h g (List.mem_cons_of_mem _ hg)
    · rw [if_neg hk] at hg
      rcases List.mem_cons.mp hg with rfl | hg
      · exact h g (List.mem_cons_self _ _)
      · exact ih (fun g3 hg3 => h g3 (List.mem_cons_of_mem _ hg3)) g hg

theorem vals_evPairs :
    ∀ (l : List Pkg) (m : List (Nat × List String)),
      (∀ g ∈ m, g.2 ≠ []) → ∀ g ∈ evPairs l m, g.2 ≠ []
  | [], m, h => h
  | [_], m, h => h
  | a :: b :: rest, m, h => by
    simp only [evPairs]
    by_cases hab : a.atomKey = b.atomKey
    · rw [if_pos hab]
      exact vals_evPairs (b :: rest) _ (vals_addVers h)
    · rw [if_neg hab]
      exact vals_evPairs (b :: rest) m h

/-- C1, counterexample: the claim says one package yields at most one
EqualVersions finding even when it contains several disjoint clusters of
mutually equal versions. On the code, the mapping is keyed by the
versioned atom (identity WITH version), so the package group exPkgsC1
with two disjoint equal-version clusters yields two findings, not one. -/
theorem c1_counterexample :
    evFeed exPkgsC1 =
      [Finding.EqualVersions ["1.0", "1.0-r0"], Finding.EqualVersions ["2.0", "2.0-r0"]]
    ∧ ¬ (evFeed exPkgsC1).length ≤ 1 := by
  constructor
  · decide
  · decide

/-- C1, amended: the version-equality detector builds a mapping keyed by
the versioned identity (not the identity without version) to the set of
literal version strings found equal by the adjacent-pair scan over the
version-sorted group; after the scan it yields exactly one EqualVersions
finding per such versioned identity (the keys of the mapping are pairwise
distinct and every recorded set is non-empty), carrying the sorted
literal version strings. A package with several disjoint clusters of
mutually equal versions therefore yields one finding per cluster. -/
theorem c1_amended (pkgset : List Pkg) :
    ((evPairs (sortPkgs pkgset) []).map Prod.fst).Nodup
    ∧ evFeed pkgset =
        (evPairs (sortPkgs pkgset) []).map (fun g => Finding.EqualVersions (sortStrs g.2))
    ∧ (∀ vs, Finding.EqualVersions vs ∈ evFeed pkgset →
        vs.Pairwise (fun a b => strLe a b = true) ∧ vs ≠ []) := by
  refine ⟨nodup_keys_evPairs _ [] (by simp), rfl, ?_⟩
  intro vs hvs
  simp only [evFeed, List.mem_map] at hvs
  rcases hvs with ⟨g, hg, heq⟩
  have hne : g.2 ≠ [] := vals_evPairs _ [] (by simp) g hg
  injection heq with h
  subst h
  refine ⟨sortStrs_pairwise _, ?_⟩
  intro hnil
  rcases List.exists_mem_of_ne_nil g.2 hne with ⟨x, hx⟩
  have hx2 : x ∈ sortStrs g.2 := mem_sortStrs.mpr hx
  rw [hnil] at hx2
  simp at hx2

theorem bucket_foldl_size (l : List (String × Nat)) (s : Nat) :
    ∀ m, bucket s (l.foldl (fun m e => addToGroup m e.2 e.1) m)
      = bucket s m ++ (l.filter (fun e => e.2 == s)).map Prod.fst := by
  induction l with
  | nil => intro m; simp
  | cons e rest ih =>
    intro m
    rw [List.foldl_cons, ih, bucket_addToGroup]
    by_cases h : s = e.2
    · rw [if_pos h]
      have hb : (e.2 == s) = true := beq_iff_eq.mpr h.symm
      simp [List.filter_cons, hb, List.append_assoc]
    · rw [if_neg h]
      have hb : (e.2 == s) = false := by
        simp only [beq_eq_false_iff_ne, ne_eq]
        exact fun e2 => h e2.symm
      simp [List.filter_cons, hb]

theorem bucket_groupBySize (l : List (String × Nat)) (s : Nat) :
    bucket s (groupBySize l) = (l.filter (fun e => e.2 == s)).map Prod.fst := by
  have := bucket_foldl_size l s []
  simpa [groupBySize, bucket] using this

theorem nodup_keys_groupBySize (l : List (String × Nat)) :
    ((groupBySize l).map Prod.fst).Nodup := by
  have gen : ∀ m, (List.map Prod.fst m).Nodup →
      ((l.foldl (fun m e => addToGroup m e.2 e.1) m).map Prod.fst).Nodup := by
    induction l with
    | nil => intro m h; simpa
    | cons e rest ih => intro m h; exact ih _ (nodup_keys_addToGroup h)
  exact gen [] (by simp)

theorem bucket_foldl_key (calls : List String) (kf : String → Nat) (d : Nat) :
    ∀ m, bucket d (calls.foldl (fun dm f => addToGroup dm (kf f) f) m)
      = bucket d m ++ calls.filter (fun f => kf f == d) := by
  induction calls with
  | nil => intro m; simp
  | cons f rest ih =>
    intro m
    rw [List.foldl_cons, ih, bucket_addToGroup]
    by_cases h : d = kf f
    · rw [if_pos h]
      have hb : (kf f == d) = true := beq_iff_eq.mpr h.symm
      simp [List.filter_cons, hb, List.append_assoc]
    · rw [if_neg h]
      have hb : (kf f == d) = false := by
        simp only [beq_eq_false_iff_ne, ne_eq]
        exact fun e2 => h e2.symm
      simp [List.filter_cons, hb]

theorem bucket_filesByDigest (pkgPath : String) (digest : String → Nat)
    (m : List (Nat × List String)) (d : Nat) :
    bucket d (filesByDigest pkgPath digest m)
      = (digestCalls m).filter (fun f => digest (pkgPath ++ "/" ++ f) == d) := by
  have := bucket_foldl_key (digestCalls m) (fun f => digest (pkgPath ++ "/" ++ f)) d []
  simpa [filesByDigest, bucket] using this

theorem nodup_keys_filesByDigest (pkgPath : String) (digest : String → Nat)
    (m : List (Nat × List String)) :
    ((filesByDigest pkgPath digest m).map Prod.fst).Nodup := by
  have gen : ∀ (calls : List String) (dm : List (Nat × List String)),
      (List.map Prod.fst dm).Nodup →
      ((calls.foldl (fun dm f => addToGroup dm (digest (pkgPath ++ "/" ++ f)) f) dm).map
        Prod.fst).Nodup := by
    intro calls
    induction calls with
    | nil => intro dm h; simpa
    | cons f rest ih => intro dm h; exact ih _ (nodup_keys_addToGroup h)
  exact gen _ [] (by simp)

theorem mem_digestCalls {p : String} {m : List (Nat × List String)} :
    p ∈ digestCalls m ↔ ∃ g ∈ m, 1 < g.2.length ∧ p ∈ g.2 := by
  simp only [digestCalls, List.mem_flatMap]
  constructor
  · rintro ⟨g, hg, hp⟩
    by_cases h : 1 < g.2.length
    · exact ⟨g, hg, h, by rwa [if_pos h] at hp⟩
    · rw [if_neg h] at hp
      simp at hp
  · rintro ⟨g, hg, h, hp⟩
    exact ⟨g, hg, by rwa [if_pos h]⟩

/-- The two-phase property at the level of the recorded walker output:
a path is digested exactly when the size bucket holding it has at least
two members. -/
theorem mem_digestCalls_groupBySize {p : String} {l : List (String × Nat)} :
    p ∈ digestCalls (groupBySize l) ↔
      ∃ s, (p, s) ∈ l ∧ 2 ≤ (l.filter (fun e => e.2 == s)).length := by
  constructor
  · intro hp
    rcases mem_digestCalls.mp hp with ⟨g, hg, hlen, hpg⟩
    have hb : bucket g.1 (groupBySize l) = g.2 :=
      bucket_of_mem hg (nodup_keys_groupBySize l)
    rw [bucket_groupBySize] at hb
    rw [← hb] at hpg
    rcases List.mem_map.mp hpg with ⟨e, he, hep⟩
    rcases List.mem_filter.mp he with ⟨hel, hes⟩
    refine ⟨g.1, ?_, ?_⟩
    · have : e = (p, g.1) := by
        rcases e with ⟨e1, e2⟩
        simp only at hep
        subst hep
        simp only [beq_iff_eq] at hes
        rw [hes]
      rwa [this] at hel
    · have hlen2 : g.2.length = (l.filter (fun e => e.2 == g.1)).length := by
        rw [← hb, List.length_map]
      omega
  · rintro ⟨s, hps, hlen⟩
    have hb := bucket_groupBySize l s
    have hpb : p ∈ bucket s (groupBySize l) := by
      rw [hb]
      exact List.mem_map.mpr ⟨(p, s), List.mem_filter.mpr ⟨hps, beq_iff_eq.mpr rfl⟩, rfl⟩
    have hne : bucket s (groupBySize l) ≠ [] := by
      intro e
      rw [e] at hpb
      simp at hpb
    have hmem := mem_of_bucket_ne_nil hne
    refine mem_digestCalls.mpr ⟨(s, bucket s (groupBySize l)), hmem, ?_, hpb⟩
    have : (bucket s (groupBySize l)).length = (l.filter (fun e => e.2 == s)).length := by
      rw [hb, List.length_map]
    show 1 < (bucket s (groupBySize l)).length
    omega

theorem flatMap_if_singleton (m : List (Nat × List String)) (F : Nat × List String → Finding) :
    m.flatMap (fun g => if 1 < g.2.length then [F g] else []) =
      (m.filter (fun g => decide (1 < g.2.length))).map F := by
  induction m with
  | nil => rfl
  | cons g rest ih =>
    simp only [List.flatMap_cons, List.filter_cons]
    by_cases h : 1 < g.2.length
    · simp [h, ih]
    · simp [h, ih]

/-- C2: duplicate detection over the files subtree is two-phase. After
the walk, the digest of a recorded file is computed exactly when its
size bucket holds at least two files (so a uniquely sized file triggers
zero digest calls), and the duplicate pass yields exactly one
DuplicateFiles finding per digest bucket holding at least two files
(the digest keys are pairwise distinct), carrying the sorted list of
the package-relative paths of that bucket. -/
theorem c2_two_phase (l : List (String × Nat)) (pkgPath : String) (digest : String → Nat) :
    (∀ p, p ∈ digestCalls (groupBySize l) ↔
        ∃ s, (p, s) ∈ l ∧ 2 ≤ (l.filter (fun e => e.2 == s)).length)
    ∧ ((filesByDigest pkgPath digest (groupBySize l)).map Prod.fst).Nodup
    ∧ dupFindings pkgPath digest (groupBySize l) =
        ((filesByDigest pkgPath digest (groupBySize l)).filter
          (fun g => decide (1 < g.2.length))).map
          (fun g => Finding.DuplicateFiles (sortStrs g.2))
    ∧ (∀ g ∈ filesByDigest pkgPath digest (groupBySize l),
        (sortStrs g.2).Pairwise (fun a b => strLe a b = true)
        ∧ ∀ p, p ∈ sortStrs g.2 ↔ p ∈ g.2) := by
  refine ⟨fun p => mem_digestCalls_groupBySize, nodup_keys_filesByDigest _ _ _,
    flatMap_if_singleton _ _, ?_⟩
  intro g hg
  exact ⟨sortStrs_pairwise _, fun p => mem_sortStrs⟩

/-- C2, witness: on exRecsW2, the two same-size files are digested, the
uniquely sized file is not, and the digest keys are duplicate free. -/
theorem c2_witness :
    ("files/a" ∈ digestCalls (groupBySize exRecsW2) ↔
      ∃ s, ("files/a", s) ∈ exRecsW2 ∧ 2 ≤ (exRecsW2.filter (fun e => e.2 == s)).length)
    ∧ ("files/c" ∈ digestCalls (groupBySize exRecsW2) ↔
      ∃ s, ("files/c", s) ∈ exRecsW2 ∧ 2 ≤ (exRecsW2.filter (fun e => e.2 == s)).length)
    ∧ ((filesByDigest "cat/pn" (fun _ => 9) (groupBySize exRecsW2)).map Prod.fst).Nodup
    ∧ ("files/a" ∈ digestCalls (groupBySize exRecsW2))
    ∧ ("files/c" ∉ digestCalls (groupBySize exRecsW2)) :=
  ⟨(c2_two_phase exRecsW2 "cat/pn" (fun _ => 9)).1 "files/a",
   (c2_two_phase exRecsW2 "cat/pn" (fun _ => 9)).1 "files/c",
   (c2_two_phase exRecsW2 "cat/pn" (fun _ => 9)).2.1,
   by decide, by decide⟩

/-- C5, counterexample: the claim asserts size homogeneity of digest
buckets for every possible behavior of the external hashing utility;
with a constant digest, files of sizes 1 and 2 land in one digest bucket
and one DuplicateFiles finding combines files of different sizes. -/
theorem c5_counterexample :
    filesByDigest "cat/pn" (fun _ => 0) (groupBySize exRecsC5) =
      [(0, ["files/a", "files/b", "files/c", "files/d"])]
    ∧ ("files/a", 1) ∈ exRecsC5 ∧ ("files/d", 2) ∈ exRecsC5
    ∧ dupFindings "cat/pn" (fun _ => 0) (groupBySize exRecsC5) =
      [Finding.DuplicateFiles ["files/a", "files/b", "files/c", "files/d"]] := by
  refine ⟨by decide, by decide, by decide, by decide⟩

/-- C5, amended: every path recorded under one digest has exactly that
digest, and entered the digest phase from a size bucket of cardinality
at least two; provided the hashing utility never assigns equal digests
to recorded files of different sizes (in particular for any injective
digest), every two paths under one digest also have identical recorded
size. Unconditional size homogeneity fails (see the counterexample). -/
theorem c5_amended (l : List (String × Nat)) (pkgPath : String) (digest : String → Nat)
    (hcomp : ∀ p s q t, (p, s) ∈ l → (q, t) ∈ l →
      digest (pkgPath ++ "/" ++ p) = digest (pkgPath ++ "/" ++ q) → s = t) :
    ∀ g ∈ filesByDigest pkgPath digest (groupBySize l),
      (∀ p ∈ g.2, digest (pkgPath ++ "/" ++ p) = g.1)
      ∧ (∀ p ∈ g.2, ∃ s, (p, s) ∈ l ∧ 2 ≤ (l.filter (fun e => e.2 == s)).length)
      ∧ (∀ p q s t, p ∈ g.2 → q ∈ g.2 → (p, s) ∈ l → (q, t) ∈ l → s = t) := by
  intro g hg
  have hb : bucket g.1 (filesByDigest pkgPath digest (groupBySize l)) = g.2 :=
    bucket_of_mem hg (nodup_keys_filesByDigest _ _ _)
  rw [bucket_filesByDigest] at hb
  have hdig : ∀ p ∈ g.2, digest (pkgPath ++ "/" ++ p) = g.1 := by
    intro p hp
    rw [← hb] at hp
    exact beq_iff_eq.mp (List.mem_filter.mp hp).2
  have hcall : ∀ p ∈ g.2, p ∈ digestCalls (groupBySize l) := by
    intro p hp
    rw [← hb] at hp
    exact (List.mem_filter.mp hp).1
  refine ⟨hdig, ?_, ?_⟩
  · intro p hp
    exact mem_digestCalls_groupBySize.mp (hcall p hp)
  · intro p q s t hp hq hps hqt
    exact hcomp p s q t hps hqt ((hdig p hp).trans (hdig q hq).symm)

/-- C5, witness: the amended statement applied to a concrete recorded
list where all recorded files share one size, with a constant digest. -/
theorem c5_amended_witness :
    (∀ p ∈ ((0 : Nat), ["files/a", "files/b"]).2,
      (fun _ => (0 : Nat)) ("cat/pn" ++ "/" ++ p) = ((0 : Nat), ["files/a", "files/b"]).1)
    ∧ (∀ p ∈ ((0 : Nat), ["files/a", "files/b"]).2,
        ∃ s, (p, s) ∈ exRecsW5 ∧ 2 ≤ (exRecsW5.filter (fun e => e.2 == s)).length)
    ∧ (∀ p q s t, p ∈ ((0 : Nat), ["files/a", "files/b"]).2 →
        q ∈ ((0 : Nat), ["files/a", "files/b"]).2 →
        (p, s) ∈ exRecsW5 → (q, t) ∈ exRecsW5 → s = t) := by
  have hcomp : ∀ p s q t, (p, s) ∈ exRecsW5 → (q, t) ∈ exRecsW5 →
      (fun _ => (0 : Nat)) ("cat/pn" ++ "/" ++ p) =
        (fun _ => (0 : Nat)) ("cat/pn" ++ "/" ++ q) → s = t := by
    intro p s q t hp hq _
    simp only [exRecsW5, List.mem_cons, List.mem_singleton, Prod.mk.injEq,
      List.not_mem_nil, or_false] at hp hq
    rcases hp with ⟨_, rfl⟩ | ⟨_, rfl⟩ <;> rcases hq with ⟨_, rfl⟩ | ⟨_, rfl⟩ <;> rfl
  exact c5_amended exRecsW5 "cat/pn" (fun _ => 0) hcomp
    ((0 : Nat), ["files/a", "files/b"]) (by decide)

/-! ### Structural lemmas for the package directory pass -/

theorem count_flatMap {α : Type} (l : List α) (f : α → List Finding) (fd : Finding) :
    ((l.flatMap f).count fd) = (l.map (fun x => (f x).count fd)).sum := by
  induction l with
  | nil => rfl
  | cons x rest ih => simp [List.flatMap_cons, List.count_append, ih]

theorem scanEntries_err_none_iff (cfg : Cfg) (fs : FS) (entries : List String) :
    (scanEntries cfg fs entries).2.2.2.2 = none ↔
      ∀ n ∈ entries, (entryScan cfg fs n).2.2.2.2 = none := by
  induction entries with
  | nil => simp [scanEntries]
  | cons name rest ih =>
    rcases hes : entryScan cfg fs name with ⟨f, m, i, u, e⟩
    rcases hrest : scanEntries cfg fs rest with ⟨f2, m2, i2, u2, e2⟩
    cases e with
    | some err =>
      simp only [scanEntries, hes]
      simp only [List.mem_cons]
      constructor
      · intro h; exact absurd h (by simp)
      · intro h
        have := h name (Or.inl rfl)
        rw [hes] at this
        simp at this
    | none =>
      simp only [scanEntries, hes, hrest]
      rw [hrest] at ih
      simp only [List.mem_cons] at *
      constructor
      · intro h n hn
        rcases hn with rfl | hn
        · rw [hes]
        · exact ih.mp h n hn
      · intro h
        exact ih.mpr (fun n hn => h n (Or.inr hn))

theorem scanEntries_of_all_ok (cfg : Cfg) (fs : FS) {entries : List String}
    (h : ∀ n ∈ entries, (entryScan cfg fs n).2.2.2.2 = none) :
    scanEntries cfg fs entries =
      (entries.flatMap (fun n => (entryScan cfg fs n).1),
       entries.flatMap (fun n => (entryScan cfg fs n).2.1),
       entries.flatMap (fun n => (entryScan cfg fs n).2.2.1),
       entries.flatMap (fun n => (entryScan cfg fs n).2.2.2.1),
       none) := by
  induction entries with
  | nil => simp [scanEntries]
  | cons name rest ih =>
    have hname := h name (List.mem_cons_self _ _)
    rcases hes : entryScan cfg fs name with ⟨f, m, i, u, e⟩
    rw [hes] at hname
    simp only at hname
    subst hname
    have hrest := ih (fun n hn => h n (List.mem_cons_of_mem _ hn))
    simp only [scanEntries, hes, hrest, List.flatMap_cons]

theorem processFiles_err_none_iff (cfg : Cfg) (fs : FS) (rel : String) (names : List String) :
    (processFiles cfg fs rel names).2.2 = none ↔
      ∀ n ∈ names, (fileStep cfg fs rel n).2.2 = none := by
  induction names with
  | nil => simp [processFiles]
  | cons name rest ih =>
    rcases hes : fileStep cfg fs rel name with ⟨f, r, e⟩
    rcases hrest : processFiles cfg fs rel rest with ⟨f2, r2, e2⟩
    cases e with
    | some err =>
      simp only [processFiles, hes]
      simp only [List.mem_cons]
      constructor
      · intro h; exact absurd h (by simp)
      · intro h
        have := h name (Or.inl rfl)
        rw [hes] at this
        simp at this
    | none =>
      simp only [processFiles, hes, hrest]
      rw [hrest] at ih
      simp only [List.mem_cons] at *
      constructor
      · intro h n hn
        rcases hn with rfl | hn
        · rw [hes]
        · exact ih.mp h n hn
      · intro h
        exact ih.mpr (fun n hn => h n (Or.inr hn))

theorem processFiles_of_all_ok (cfg : Cfg) (fs : FS) (rel : String) {names : List String}
    (h : ∀ n ∈ names, (fileStep cfg fs rel n).2.2 = none) :
    processFiles cfg fs rel names =
      (names.flatMap (fun n => (fileStep cfg fs rel n).1),
       names.flatMap (fun n => (fileStep cfg fs rel n).2.1),
       none) := by
  induction names with
  | nil => simp [processFiles]
  | cons name rest ih =>
    have hname := h name (List.mem_cons_self _ _)
    rcases hes : fileStep cfg fs rel name with ⟨f, r, e⟩
    rw [hes] at hname
    simp only at hname
    subst hname
    have hrest := ih (fun n hn => h n (List.mem_cons_of_mem _ hn))
    simp only [processFiles, hes, hrest, List.flatMap_cons]

theorem processTriples_err_none_iff (cfg : Cfg) (fs : FS) (ts : List (String × List String)) :
    (processTriples cfg fs ts).2.2 = none ↔
      ∀ t ∈ ts, (processFiles cfg fs t.1 t.2).2.2 = none := by
  induction ts with
  | nil => simp [processTriples]
  | cons t rest ih =>
    rcases hes : processFiles cfg fs t.1 t.2 with ⟨f, r, e⟩
    rcases hrest : processTriples cfg fs rest with ⟨f2, r2, e2⟩
    cases e with
    | some err =>
      simp only [processTriples, hes]
      simp only [List.mem_cons]
      constructor
      · intro h; exact absurd h (by simp)
      · intro h
        have := h t (Or.inl rfl)
        rw [hes] at this
        simp at this
    | none =>
      simp only [processTriples, hes, hrest]
      rw [hrest] at ih
      simp only [List.mem_cons] at *
      constructor
      · intro h n hn
        rcases hn with rfl | hn
        · rw [hes]
        · exact ih.mp h n hn
      · intro h
        exact ih.mpr (fun n hn => h n (Or.inr hn))

theorem processTriples_of_all_ok (cfg : Cfg) (fs : FS) {ts : List (String × List String)}
    (h : ∀ t ∈ ts, (processFiles cfg fs t.1 t.2).2.2 = none) :
    processTriples cfg fs ts =
      (ts.flatMap (fun t => (processFiles cfg fs t.1 t.2).1),
       ts.flatMap (fun t => (processFiles cfg fs t.1 t.2).2.1),
       none) := by
  induction ts with
  | nil => simp [processTriples]
  | cons t rest ih =>
    have hname := h t (List.mem_cons_self _ _)
    rcases hes : processFiles cfg fs t.1 t.2 with ⟨f, r, e⟩
    rw [hes] at hname
    simp only at hname
    subst hname
    have hrest := ih (fun n hn => h n (List.mem_cons_of_mem _ hn))
    simp only [processTriples, hes, hrest, List.flatMap_cons]

theorem mem_bannedFinding {rep name : String} {fd : Finding}
    (h : fd ∈ bannedFinding rep name) :
    bannedChars name ≠ [] ∧ fd = Finding.BannedCharacter rep (bannedChars name) := by
  unfold bannedFinding at h
  by_cases hb : bannedChars name = []
  · rw [if_pos hb] at h
    simp at h
  · rw [if_neg hb] at h
    simp only [List.mem_singleton] at h
    exact ⟨hb, h⟩

theorem execCheck_ok_mem {fs : FS} {path name : String} {F : List Finding} {fd : Finding}
    (he : execCheck fs path name = .ok F) (h : fd ∈ F) :
    ∃ m, fs.isfile path = true ∧ fs.statMode path = .ok m ∧ m &&& 0o111 ≠ 0
      ∧ fd = Finding.ExecutableFile name := by
  unfold execCheck at he
  by_cases hif : fs.isfile path = true
  · rw [if_pos hif] at he
    rcases hsm : fs.statMode path with e | m
    · rw [hsm] at he
      simp at he
    · rw [hsm] at he
      simp only [Except.ok.injEq] at he
      subst he
      by_cases hm : m &&& 0o111 ≠ 0
      · rw [if_pos hm] at h
        simp only [List.mem_singleton] at h
        exact ⟨m, hif, rfl, hm, h⟩
      · rw [if_neg hm] at h
        simp at h
  · rw [if_neg hif] at he
    simp only [Except.ok.injEq] at he
    subst he
    simp at h

theorem entryScan_fst {cfg : Cfg} {fs : FS} {name : String}
    (hig : fs.gitignored (cfg.pkgPath ++ "/" ++ name) = false)
    {F : List Finding}
    (hec : execCheck fs (cfg.pkgPath ++ "/" ++ name) name = .ok F) :
    (entryScan cfg fs name).1 = F ++ bannedFinding name name ++ utf8Tail cfg fs name := by
  have hig2 : ¬ fs.gitignored (cfg.pkgPath ++ "/" ++ name) = true := by simp [hig]
  by_cases hx : hasExt name = true
  · rcases hct : fs.contents (cfg.pkgPath ++ "/" ++ name) with e | bytes
    · simp [entryScan, utf8Tail, hig2, hec, hx, hct]
    · rcases hdec : utf8Decode (bytes.take 8192) with msg | u
      · rcases hat : cfg.atomPkg ("=" ++ cfg.category ++ "/" ++ basename (stripExt name))
            with _ | p
        · simp [entryScan, utf8Tail, hig2, hec, hx, hct, hdec, hat]
        · by_cases hp : p ≠ basename cfg.pkgPath
          · simp [entryScan, utf8Tail, hig2, hec, hx, hct, hdec, hat, hp]
          · simp [entryScan, utf8Tail, hig2, hec, hx, hct, hdec, hat, hp]
      · rcases hat : cfg.atomPkg ("=" ++ cfg.category ++ "/" ++ basename (stripExt name))
            with _ | p
        · simp [entryScan, utf8Tail, hig2, hec, hx, hct, hdec, hat]
        · by_cases hp : p ≠ basename cfg.pkgPath
          · simp [entryScan, utf8Tail, hig2, hec, hx, hct, hdec, hat, hp]
          · simp [entryScan, utf8Tail, hig2, hec, hx, hct, hdec, hat, hp]
  · by_cases hu : cfg.gentooRepo = true ∧ name ∉ allowListNames
    · simp [entryScan, utf8Tail, hig2, hec, hx, hu]
    · simp [entryScan, utf8Tail, hig2, hec, hx, hu]

theorem mem_utf8Tail {cfg : Cfg} {fs : FS} {name : String} {fd : Finding}
    (h : fd ∈ utf8Tail cfg fs name) :
    ∃ bytes msg, hasExt name = true
      ∧ fs.contents (cfg.pkgPath ++ "/" ++ name) = .ok bytes
      ∧ utf8Decode (bytes.take 8192) = .error msg
      ∧ fd = Finding.InvalidUTF8 name msg := by
  unfold utf8Tail at h
  by_cases hx : hasExt name = true
  · rw [if_pos hx] at h
    rcases hct : fs.contents (cfg.pkgPath ++ "/" ++ name) with e | bytes
    · rw [hct] at h
      replace h : fd ∈ ([] : List Finding) := h
      simp at h
    · rw [hct] at h
      replace h : fd ∈ (match utf8Decode (bytes.take 8192) with
          | Except.error msg => [Finding.InvalidUTF8 name msg]
          | Except.ok _ => ([] : List Finding)) := h
      rcases hdec : utf8Decode (bytes.take 8192) with msg | u
      · rw [hdec] at h
        replace h : fd ∈ [Finding.InvalidUTF8 name msg] := h
        simp only [List.mem_singleton] at h
        exact ⟨bytes, msg, hx, rfl, hdec, h⟩
      · rw [hdec] at h
        replace h : fd ∈ ([] : List Finding) := h
        simp at h
  · rw [if_neg hx] at h
    simp at h

theorem entryScan_ignored {cfg : Cfg} {fs : FS} {name : String}
    (hig : fs.gitignored (cfg.pkgPath ++ "/" ++ name) = true) :
    entryScan cfg fs name = ([], [], [], [], none) := by
  simp [entryScan, hig]

theorem entryScan_execErr {cfg : Cfg} {fs : FS} {name : String} {e : String}
    (hig : fs.gitignored (cfg.pkgPath ++ "/" ++ name) = false)
    (hec : execCheck fs (cfg.pkgPath ++ "/" ++ name) name = .error e) :
    entryScan cfg fs name = ([], [], [], [], some e) := by
  have hig2 : ¬ fs.gitignored (cfg.pkgPath ++ "/" ++ name) = true := by simp [hig]
  simp [entryScan, hig2, hec]

theorem mem_entryScan {cfg : Cfg} {fs : FS} {name : String} {fd : Finding}
    (h : fd ∈ (entryScan cfg fs name).1) :
    fs.gitignored (cfg.pkgPath ++ "/" ++ name) = false
    ∧ ((∃ m, fs.isfile (cfg.pkgPath ++ "/" ++ name) = true
          ∧ fs.statMode (cfg.pkgPath ++ "/" ++ name) = .ok m
          ∧ m &&& 0o111 ≠ 0 ∧ fd = Finding.ExecutableFile name)
      ∨ (bannedChars name ≠ [] ∧ fd = Finding.BannedCharacter name (bannedChars name))
      ∨ (∃ bytes msg, hasExt name = true
          ∧ fs.contents (cfg.pkgPath ++ "/" ++ name) = .ok bytes
          ∧ utf8Decode (bytes.take 8192) = .error msg
          ∧ fd = Finding.InvalidUTF8 name msg)) := by
  by_cases hig : fs.gitignored (cfg.pkgPath ++ "/" ++ name) = true
  · rw [entryScan_ignored hig] at h
    simp at h
  · have hig2 : fs.gitignored (cfg.pkgPath ++ "/" ++ name) = false := by
      revert hig
      cases fs.gitignored (cfg.pkgPath ++ "/" ++ name) <;> simp
    refine ⟨hig2, ?_⟩
    rcases hec : execCheck fs (cfg.pkgPath ++ "/" ++ name) name with e | F
    · rw [entryScan_execErr hig2 hec] at h
      simp at h
    · rw [entryScan_fst hig2 hec] at h
      rcases List.mem_append.mp h with h2 | h2
      · rcases List.mem_append.mp h2 with h3 | h3
        · exact Or.inl (execCheck_ok_mem hec h3)
        · exact Or.inr (Or.inl (mem_bannedFinding h3))
      · exact Or.inr (Or.inr (mem_utf8Tail h2))

theorem mem_aggrFindings {mis inv unk : List String} {fd : Finding}
    (h : fd ∈ aggrFindings mis inv unk) :
    (∃ l, fd = Finding.MismatchedPN l) ∨ (∃ l, fd = Finding.InvalidPN l)
    ∨ (∃ l, fd = Finding.UnknownPkgDirEntry l) := by
  unfold aggrFindings at h
  rcases List.mem_append.mp h with h2 | h2
  · rcases List.mem_append.mp h2 with h3 | h3
    · by_cases hm : mis = []
      · rw [if_pos hm] at h3
        simp at h3
      · rw [if_neg hm] at h3
        simp only [List.mem_singleton] at h3
        exact Or.inl ⟨_, h3⟩
    · by_cases hm : inv = []
      · rw [if_pos hm] at h3
        simp at h3
      · rw [if_neg hm] at h3
        simp only [List.mem_singleton] at h3
        exact Or.inr (Or.inl ⟨_, h3⟩)
  · by_cases hm : unk = []
    · rw [if_pos hm] at h2
      simp at h2
    · rw [if_neg hm] at h2
      simp only [List.mem_singleton] at h2
      exact Or.inr (Or.inr ⟨_, h2⟩)

/-! ### Structural lemmas for the files subtree walk -/

theorem fileStep_ignored {cfg : Cfg} {fs : FS} {rel name : String}
    (hig : fs.gitignored (cfg.pkgPath ++ "/" ++ (rel ++ "/" ++ name)) = true) :
    fileStep cfg fs rel name = ([], [], none) := by
  simp [fileStep, hig]

theorem fileStep_lstatErr {cfg : Cfg} {fs : FS} {rel name : String} {e : String}
    (hig : fs.gitignored (cfg.pkgPath ++ "/" ++ (rel ++ "/" ++ name)) = false)
    (hls : fs.lstat (cfg.pkgPath ++ "/" ++ (rel ++ "/" ++ name)) = .error e) :
    fileStep cfg fs rel name = ([], [], some e) := by
  have hig2 : ¬ fs.gitignored (cfg.pkgPath ++ "/" ++ (rel ++ "/" ++ name)) = true := by
    simp [hig]
  simp [fileStep, hig2, hls]

theorem fileStep_nonReg {cfg : Cfg} {fs : FS} {rel name : String} {st : StatInfo}
    (hig : fs.gitignored (cfg.pkgPath ++ "/" ++ (rel ++ "/" ++ name)) = false)
    (hls : fs.lstat (cfg.pkgPath ++ "/" ++ (rel ++ "/" ++ name)) = .ok st)
    (hreg : isReg st.mode = false) :
    fileStep cfg fs rel name = ([], [], none) := by
  have hig2 : ¬ fs.gitignored (cfg.pkgPath ++ "/" ++ (rel ++ "/" ++ name)) = true := by
    simp [hig]
  have hreg2 : ¬ isReg st.mode = true := by simp [hreg]
  simp [fileStep, hig2, hls, hreg2]

theorem fileStep_reg {cfg : Cfg} {fs : FS} {rel name : String} {st : StatInfo}
    (hig : fs.gitignored (cfg.pkgPath ++ "/" ++ (rel ++ "/" ++ name)) = false)
    (hls : fs.lstat (cfg.pkgPath ++ "/" ++ (rel ++ "/" ++ name)) = .ok st)
    (hreg : isReg st.mode = true) :
    fileStep cfg fs rel name =
      ((if st.mode &&& 0o111 ≠ 0 then [Finding.ExecutableFile (rel ++ "/" ++ name)] else [])
        ++ (if st.size = 0 then [Finding.EmptyFile (rel ++ "/" ++ name)]
            else if 20480 < st.size
            then [Finding.SizeViolation (rel ++ "/" ++ name) st.size] else [])
        ++ bannedFinding (rel ++ "/" ++ name) name,
       (if st.size = 0 then [] else [(rel ++ "/" ++ name, st.size)]),
       none) := by
  have hig2 : ¬ fs.gitignored (cfg.pkgPath ++ "/" ++ (rel ++ "/" ++ name)) = true := by
    simp [hig]
  simp [fileStep, hig2, hls, hreg]

theorem mem_fileStep {cfg : Cfg} {fs : FS} {rel name : String} {fd : Finding}
    (h : fd ∈ (fileStep cfg fs rel name).1) :
    fs.gitignored (cfg.pkgPath ++ "/" ++ (rel ++ "/" ++ name)) = false
    ∧ ∃ st, fs.lstat (cfg.pkgPath ++ "/" ++ (rel ++ "/" ++ name)) = .ok st
      ∧ isReg st.mode = true
      ∧ ((fd = Finding.ExecutableFile (rel ++ "/" ++ name) ∧ st.mode &&& 0o111 ≠ 0)
        ∨ (fd = Finding.EmptyFile (rel ++ "/" ++ name) ∧ st.size = 0)
        ∨ (fd = Finding.SizeViolation (rel ++ "/" ++ name) st.size
            ∧ 20480 < st.size ∧ st.size ≠ 0)
        ∨ (fd = Finding.BannedCharacter (rel ++ "/" ++ name) (bannedChars name)
            ∧ bannedChars name ≠ [])) := by
  by_cases hig : fs.gitignored (cfg.pkgPath ++ "/" ++ (rel ++ "/" ++ name)) = true
  · rw [fileStep_ignored hig] at h
    simp at h
  · have hig2 : fs.gitignored (cfg.pkgPath ++ "/" ++ (rel ++ "/" ++ name)) = false := by
      revert hig
      cases fs.gitignored (cfg.pkgPath ++ "/" ++ (rel ++ "/" ++ name)) <;> simp
    refine ⟨hig2, ?_⟩
    rcases hls : fs.lstat (cfg.pkgPath ++ "/" ++ (rel ++ "/" ++ name)) with e | st
    · rw [fileStep_lstatErr hig2 hls] at h
      simp at h
    · rcases hreg : isReg st.mode with _ | _
      · rw [fileStep_nonReg hig2 hls hreg] at h
        simp at h
      · rw [fileStep_reg hig2 hls hreg] at h
        refine ⟨st, rfl, hreg, ?_⟩
        rcases List.mem_append.mp h with h2 | h2
        · rcases List.mem_append.mp h2 with h3 | h3
          · by_cases hm : st.mode &&& 0o111 ≠ 0
            · rw [if_pos hm] at h3
              simp only [List.mem_singleton] at h3
              exact Or.inl ⟨h3, hm⟩
            · rw [if_neg hm] at h3
              simp at h3
          · by_cases hz : st.size = 0
            · rw [if_pos hz] at h3
              simp only [List.mem_singleton] at h3
              exact Or.inr (Or.inl ⟨h3, hz⟩)
            · rw [if_neg hz] at h3
              by_cases hs : 20480 < st.size
              · rw [if_pos hs] at h3
                simp only [List.mem_singleton] at h3
                exact Or.inr (Or.inr (Or.inl ⟨h3, hs, hz⟩))
              · rw [if_neg hs] at h3
                simp at h3
        · rcases mem_bannedFinding h2 with ⟨hb, he⟩
          exact Or.inr (Or.inr (Or.inr ⟨he, hb⟩))

theorem mem_fileStep_rec {cfg : Cfg} {fs : FS} {rel name p : String} {s : Nat}
    (h : (p, s) ∈ (fileStep cfg fs rel name).2.1) :
    p = rel ++ "/" ++ name
    ∧ fs.gitignored (cfg.pkgPath ++ "/" ++ (rel ++ "/" ++ name)) = false
    ∧ ∃ st, fs.lstat (cfg.pkgPath ++ "/" ++ (rel ++ "/" ++ name)) = .ok st
      ∧ isReg st.mode = true ∧ st.size = s ∧ s ≠ 0 := by
  by_cases hig : fs.gitignored (cfg.pkgPath ++ "/" ++ (rel ++ "/" ++ name)) = true
  · rw [fileStep_ignored hig] at h
    simp at h
  · have hig2 : fs.gitignored (cfg.pkgPath ++ "/" ++ (rel ++ "/" ++ name)) = false := by
      revert hig
      cases fs.gitignored (cfg.pkgPath ++ "/" ++ (rel ++ "/" ++ name)) <;> simp
    rcases hls : fs.lstat (cfg.pkgPath ++ "/" ++ (rel ++ "/" ++ name)) with e | st
    · rw [fileStep_lstatErr hig2 hls] at h
      simp at h
    · rcases hreg : isReg st.mode with _ | _
      · rw [fileStep_nonReg hig2 hls hreg] at h
        simp at h
      · rw [fileStep_reg hig2 hls hreg] at h
        simp only at h
        by_cases hz : st.size = 0
        · rw [if_pos hz] at h
          simp at h
        · rw [if_neg hz] at h
          simp only [List.mem_singleton, Prod.mk.injEq] at h
          refine ⟨h.1, hig2, st, rfl, hreg, h.2.symm, ?_⟩
          rw [h.2]
          exact hz

/-! ### Decomposition of a successful feed run -/

theorem feed_of_success {cfg : Cfg} {fs : FS} {entries : List String}
    (hls : fs.pkgListing = .ok entries)
    (h1 : (scanEntries cfg fs entries).2.2.2.2 = none)
    (h2 : (processTriples cfg fs (treeTriples fs)).2.2 = none) :
    feed cfg fs =
      ((scanEntries cfg fs entries).1
        ++ aggrFindings (scanEntries cfg fs entries).2.1
            (scanEntries cfg fs entries).2.2.1 (scanEntries cfg fs entries).2.2.2.1
        ++ (processTriples cfg fs (treeTriples fs)).1
        ++ dupFindings cfg.pkgPath fs.digest
            (groupBySize (processTriples cfg fs (treeTriples fs)).2.1),
       none) := by
  rcases hse : scanEntries cfg fs entries with ⟨f1, m, i, u, e1⟩
  rcases hpt : processTriples cfg fs (treeTriples fs) with ⟨f2, r, e2⟩
  rw [hse] at h1
  rw [hpt] at h2
  simp only at h1 h2
  subst h1
  subst h2
  simp [feed, hls, hse, hpt]

theorem feed_success_parts {cfg : Cfg} {fs : FS} (h : (feed cfg fs).2 = none) :
    ∃ entries, fs.pkgListing = .ok entries
      ∧ (scanEntries cfg fs entries).2.2.2.2 = none
      ∧ (processTriples cfg fs (treeTriples fs)).2.2 = none := by
  rcases hls : fs.pkgListing with e | entries
  · simp [feed, hls] at h
  · rcases hse : scanEntries cfg fs entries with ⟨f1, m, i, u, e1⟩
    cases e1 with
    | some err => simp [feed, hls, hse] at h
    | none =>
      rcases hpt : processTriples cfg fs (treeTriples fs) with ⟨f2, r, e2⟩
      cases e2 with
      | some err => simp [feed, hls, hse, hpt] at h
      | none =>
        refine ⟨entries, rfl, ?_, rfl⟩
        rw [hse]

theorem scanEntries_cons_ok {cfg : Cfg} {fs : FS} {name : String} {rest : List String}
    (h : (entryScan cfg fs name).2.2.2.2 = none) :
    (scanEntries cfg fs (name :: rest)).1 =
      (entryScan cfg fs name).1 ++ (scanEntries cfg fs rest).1
    ∧ (scanEntries cfg fs (name :: rest)).2.2.2.2 = (scanEntries cfg fs rest).2.2.2.2 := by
  rcases hes : entryScan cfg fs name with ⟨f, m, i, u, e⟩
  rw [hes] at h
  simp only at h
  subst h
  rcases hrest : scanEntries cfg fs rest with ⟨f2, m2, i2, u2, e2⟩
  simp [scanEntries, hes, hrest]

theorem entryScan_err_none {cfg : Cfg} {fs : FS} {name : String} {F : List Finding}
    (hig : fs.gitignored (cfg.pkgPath ++ "/" ++ name) = false)
    (hec : execCheck fs (cfg.pkgPath ++ "/" ++ name) name = .ok F)
    (hok : hasExt name = true →
      ∃ bytes, fs.contents (cfg.pkgPath ++ "/" ++ name) = .ok bytes) :
    (entryScan cfg fs name).2.2.2.2 = none := by
  have hig2 : ¬ fs.gitignored (cfg.pkgPath ++ "/" ++ name) = true := by simp [hig]
  by_cases hx : hasExt name = true
  · rcases hok hx with ⟨bytes, hct⟩
    rcases hdec : utf8Decode (bytes.take 8192) with msg | u
    · rcases hat : cfg.atomPkg ("=" ++ cfg.category ++ "/" ++ basename (stripExt name))
          with _ | p
      · simp [entryScan, hig2, hec, hx, hct, hdec, hat]
      · by_cases hp : p ≠ basename cfg.pkgPath <;>
          simp [entryScan, hig2, hec, hx, hct, hdec, hat, hp]
    · rcases hat : cfg.atomPkg ("=" ++ cfg.category ++ "/" ++ basename (stripExt name))
          with _ | p
      · simp [entryScan, hig2, hec, hx, hct, hdec, hat]
      · by_cases hp : p ≠ basename cfg.pkgPath <;>
          simp [entryScan, hig2, hec, hx, hct, hdec, hat, hp]
  · by_cases hu : cfg.gentooRepo = true ∧ name ∉ allowListNames <;>
      simp [entryScan, hig2, hec, hx, hu]

theorem mem_scanEntries_src {cfg : Cfg} {fs : FS} {entries : List String} {fd : Finding}
    (h : fd ∈ (scanEntries cfg fs entries).1) :
    ∃ n ∈ entries, fd ∈ (entryScan cfg fs n).1 := by
  induction entries with
  | nil => simp [scanEntries] at h
  | cons name rest ih =>
    rcases hes : entryScan cfg fs name with ⟨f, m, i, u, e⟩
    cases e with
    | some err =>
      rw [show (scanEntries cfg fs (name :: rest)).1 = f by simp [scanEntries, hes]] at h
      exact ⟨name, List.mem_cons_self _ _, by rw [hes]; exact h⟩
    | none =>
      rcases hrest : scanEntries cfg fs rest with ⟨f2, m2, i2, u2, e2⟩
      rw [show (scanEntries cfg fs (name :: rest)).1 = f ++ f2 by
        simp [scanEntries, hes, hrest]] at h
      rcases List.mem_append.mp h with h2 | h2
      · exact ⟨name, List.mem_cons_self _ _, by rw [hes]; exact h2⟩
      · rcases ih (by rw [hrest]; exact h2) with ⟨n, hn, hfd⟩
        exact ⟨n, List.mem_cons_of_mem _ hn, hfd⟩

theorem mem_processFiles_src {cfg : Cfg} {fs : FS} {rel : String} {names : List String}
    {fd : Finding} (h : fd ∈ (processFiles cfg fs rel names).1) :
    ∃ n ∈ names, fd ∈ (fileStep cfg fs rel n).1 := by
  induction names with
  | nil => simp [processFiles] at h
  | cons name rest ih =>
    rcases hes : fileStep cfg fs rel name with ⟨f, r, e⟩
    cases e with
    | some err =>
      rw [show (processFiles cfg fs rel (name :: rest)).1 = f by
        simp [processFiles, hes]] at h
      exact ⟨name, List.mem_cons_self _ _, by rw [hes]; exact h⟩
    | none =>
      rcases hrest : processFiles cfg fs rel rest with ⟨f2, r2, e2⟩
      rw [show (processFiles cfg fs rel (name :: rest)).1 = f ++ f2 by
        simp [processFiles, hes, hrest]] at h
      rcases List.mem_append.mp h with h2 | h2
      · exact ⟨name, List.mem_cons_self _ _, by rw [hes]; exact h2⟩
      · rcases ih (by rw [hrest]; exact h2) with ⟨n, hn, hfd⟩
        exact ⟨n, List.mem_cons_of_mem _ hn, hfd⟩

theorem mem_processTriples_src {cfg : Cfg} {fs : FS} {ts : List (String × List String)}
    {fd : Finding} (h : fd ∈ (processTriples cfg fs ts).1) :
    ∃ t ∈ ts, ∃ n ∈ t.2, fd ∈ (fileStep cfg fs t.1 n).1 := by
  induction ts with
  | nil => simp [processTriples] at h
  | cons t rest ih =>
    rcases hes : processFiles cfg fs t.1 t.2 with ⟨f, r, e⟩
    cases e with
    | some err =>
      rw [show (processTriples cfg fs (t :: rest)).1 = f by
        simp [processTriples, hes]] at h
      rcases mem_processFiles_src (by rw [hes]; exact h) with ⟨n, hn, hfd⟩
      exact ⟨t, List.mem_cons_self _ _, n, hn, hfd⟩
    | none =>
      rcases hrest : processTriples cfg fs rest with ⟨f2, r2, e2⟩
      rw [show (processTriples cfg fs (t :: rest)).1 = f ++ f2 by
        simp [processTriples, hes, hrest]] at h
      rcases List.mem_append.mp h with h2 | h2
      · rcases mem_processFiles_src (by rw [hes]; exact h2) with ⟨n, hn, hfd⟩
        exact ⟨t, List.mem_cons_self _ _, n, hn, hfd⟩
      · rcases ih (by rw [hrest]; exact h2) with ⟨t2, ht2, n, hn, hfd⟩
        exact ⟨t2, List.mem_cons_of_mem _ ht2, n, hn, hfd⟩

theorem mem_processFiles_rec_src {cfg : Cfg} {fs : FS} {rel : String} {names : List String}
    {p : String} {s : Nat} (h : (p, s) ∈ (processFiles cfg fs rel names).2.1) :
    ∃ n ∈ names, (p, s) ∈ (fileStep cfg fs rel n).2.1 := by
  induction names with
  | nil => simp [processFiles] at h
  | cons name rest ih =>
    rcases hes : fileStep cfg fs rel name with ⟨f, r, e⟩
    cases e with
    | some err =>
      rw [show (processFiles cfg fs rel (name :: rest)).2.1 = r by
        simp [processFiles, hes]] at h
      exact ⟨name, List.mem_cons_self _ _, by rw [hes]; exact h⟩
    | none =>
      rcases hrest : processFiles cfg fs rel rest with ⟨f2, r2, e2⟩
      rw [show (processFiles cfg fs rel (name :: rest)).2.1 = r ++ r2 by
        simp [processFiles, hes, hrest]] at h
      rcases List.mem_append.mp h with h2 | h2
      · exact ⟨name, List.mem_cons_self _ _, by rw [hes]; exact h2⟩
      · rcases ih (by rw [hrest]; exact h2) with ⟨n, hn, hfd⟩
        exact ⟨n, List.mem_cons_of_mem _ hn, hfd⟩

theorem mem_processTriples_rec_src {cfg : Cfg} {fs : FS} {ts : List (String × List String)}
    {p : String} {s : Nat} (h : (p, s) ∈ (processTriples cfg fs ts).2.1) :
    ∃ t ∈ ts, ∃ n ∈ t.2, (p, s) ∈ (fileStep cfg fs t.1 n).2.1 := by
  induction ts with
  | nil => simp [processTriples] at h
  | cons t rest ih =>
    rcases hes : processFiles cfg fs t.1 t.2 with ⟨f, r, e⟩
    cases e with
    | some err =>
      rw [show (processTriples cfg fs (t :: rest)).2.1 = r by
        simp [processTriples, hes]] at h
      rcases mem_processFiles_rec_src (by rw [hes]; exact h) with ⟨n, hn, hfd⟩
      exact ⟨t, List.mem_cons_self _ _, n, hn, hfd⟩
    | none =>
      rcases hrest : processTriples cfg fs rest with ⟨f2, r2, e2⟩
      rw [show (processTriples cfg fs (t :: rest)).2.1 = r ++ r2 by
        simp [processTriples, hes, hrest]] at h
      rcases List.mem_append.mp h with h2 | h2
      · rcases mem_processFiles_rec_src (by rw [hes]; exact h2) with ⟨n, hn, hfd⟩
        exact ⟨t, List.mem_cons_self _ _, n, hn, hfd⟩
      · rcases ih (by rw [hrest]; exact h2) with ⟨t2, ht2, n, hn, hfd⟩
        exact ⟨t2, List.mem_cons_of_mem _ ht2, n, hn, hfd⟩

theorem mem_dupFindings {pkgPath : String} {digest : String → Nat}
    {m : List (Nat × List String)} {fd : Finding}
    (h : fd ∈ dupFindings pkgPath digest m) :
    ∃ g ∈ filesByDigest pkgPath digest m, 1 < g.2.length
      ∧ fd = Finding.DuplicateFiles (sortStrs g.2) := by
  unfold dupFindings at h
  rcases List.mem_flatMap.mp h with ⟨g, hg, hfd⟩
  by_cases hl : 1 < g.2.length
  · rw [if_pos hl] at hfd
    simp only [List.mem_singleton] at hfd
    exact ⟨g, hg, hl, hfd⟩
  · rw [if_neg hl] at hfd
    simp at hfd

theorem mem_feed_src {cfg : Cfg} {fs : FS} {fd : Finding}
    (h : fd ∈ (feed cfg fs).1) :
    (∃ entries, fs.pkgListing = .ok entries ∧ ∃ n ∈ entries, fd ∈ (entryScan cfg fs n).1)
    ∨ (∃ mis inv unk, fd ∈ aggrFindings mis inv unk)
    ∨ (∃ t ∈ treeTriples fs, ∃ n ∈ t.2, fd ∈ (fileStep cfg fs t.1 n).1)
    ∨ (∃ m, fd ∈ dupFindings cfg.pkgPath fs.digest m) := by
  rcases hls : fs.pkgListing with e | entries
  · rw [show (feed cfg fs).1 = [] by simp [feed, hls]] at h
    simp at h
  · rcases hse : scanEntries cfg fs entries with ⟨f1, m, i, u, e1⟩
    cases e1 with
    | some err =>
      rw [show (feed cfg fs).1 = f1 by simp [feed, hls, hse]] at h
      exact Or.inl ⟨entries, rfl, mem_scanEntries_src (by rw [hse]; exact h)⟩
    | none =>
      rcases hpt : processTriples cfg fs (treeTriples fs) with ⟨f2, r, e2⟩
      cases e2 with
      | some err =>
        rw [show (feed cfg fs).1 = f1 ++ aggrFindings m i u ++ f2 by
          simp [feed, hls, hse, hpt]] at h
        rcases List.mem_append.mp h with h2 | h2
        · rcases List.mem_append.mp h2 with h3 | h3
          · exact Or.inl ⟨entries, rfl, mem_scanEntries_src (by rw [hse]; exact h3)⟩
          · exact Or.inr (Or.inl ⟨m, i, u, h3⟩)
        · exact Or.inr (Or.inr (Or.inl (mem_processTriples_src (by rw [hpt]; exact h2))))
      | none =>
        rw [show (feed cfg fs).1 = f1 ++ aggrFindings m i u ++ f2
            ++ dupFindings cfg.pkgPath fs.digest (groupBySize r) by
          simp [feed, hls, hse, hpt]] at h
        rcases List.mem_append.mp h with h2 | h2
        · rcases List.mem_append.mp h2 with h3 | h3
          · rcases List.mem_append.mp h3 with h4 | h4
            · exact Or.inl ⟨entries, rfl, mem_scanEntries_src (by rw [hse]; exact h4)⟩
            · exact Or.inr (Or.inl ⟨m, i, u, h4⟩)
          · exact Or.inr (Or.inr (Or.inl (mem_processTriples_src (by rw [hpt]; exact h3))))
        · exact Or.inr (Or.inr (Or.inr ⟨groupBySize r, h2⟩))

/-- C3, counterexample: the claim says a filesystem error raised while
checking one entry is reported as a finding with the scan continuing.
On exFSC3, os.stat raises EACCES on the first entry; the scan aborts
with that exception, yields no finding at all, and never reaches the
second entry, whose banned-character violation is therefore unreported. -/
theorem c3_counterexample :
    bannedChars "z!!" = ['!']
    ∧ feed exCfg exFSC3 = ([], some "EACCES") := by
  constructor
  · decide
  · rfl

/-- C3, amended: per-entry UTF-8 decode failures on a recipe entry are
captured and reported as InvalidUTF8 findings and the scan continues
with the next entry, but per-entry filesystem errors are not captured:
a stat failure on one entry aborts the listing pass with that
exception, so does an open or read failure on a recipe entry, an
os.lstat failure on a walked file aborts the walk pass, an abort of
either pass aborts the whole feed run with that exception, and a
package directory that cannot be listed aborts the scan with no
findings. -/
theorem c3_amended :
    (∀ (cfg : Cfg) (fs : FS) (name : String) (rest : List String) (F : List Finding)
        (bytes : List Nat) (msg : String),
      fs.gitignored (cfg.pkgPath ++ "/" ++ name) = false →
      execCheck fs (cfg.pkgPath ++ "/" ++ name) name = .ok F →
      hasExt name = true →
      fs.contents (cfg.pkgPath ++ "/" ++ name) = .ok bytes →
      utf8Decode (bytes.take 8192) = .error msg →
      Finding.InvalidUTF8 name msg ∈ (scanEntries cfg fs (name :: rest)).1
      ∧ (scanEntries cfg fs (name :: rest)).2.2.2.2 = (scanEntries cfg fs rest).2.2.2.2)
    ∧ (∀ (cfg : Cfg) (fs : FS) (e : String), fs.pkgListing = .error e →
        feed cfg fs = ([], some e))
    ∧ (∀ (cfg : Cfg) (fs : FS) (name : String) (rest : List String) (e : String),
        fs.gitignored (cfg.pkgPath ++ "/" ++ name) = false →
        execCheck fs (cfg.pkgPath ++ "/" ++ name) name = .error e →
        (scanEntries cfg fs (name :: rest)).2.2.2.2 = some e)
    ∧ (∀ (cfg : Cfg) (fs : FS) (name : String) (rest : List String) (F : List Finding)
        (e : String),
        fs.gitignored (cfg.pkgPath ++ "/" ++ name) = false →
        execCheck fs (cfg.pkgPath ++ "/" ++ name) name = .ok F →
        hasExt name = true →
        fs.contents (cfg.pkgPath ++ "/" ++ name) = .error e →
        (scanEntries cfg fs (name :: rest)).2.2.2.2 = some e)
    ∧ (∀ (cfg : Cfg) (fs : FS) (rel name : String) (rest : List String)
        (ts : List (String × List String)) (e : String),
        fs.gitignored (cfg.pkgPath ++ "/" ++ (rel ++ "/" ++ name)) = false →
        fs.lstat (cfg.pkgPath ++ "/" ++ (rel ++ "/" ++ name)) = .error e →
        (processTriples cfg fs ((rel, name :: rest) :: ts)).2.2 = some e)
    ∧ (∀ (cfg : Cfg) (fs : FS) (entries : List String) (f1 : List Finding)
        (m i u : List String) (e : String),
        fs.pkgListing = .ok entries →
        scanEntries cfg fs entries = (f1, m, i, u, some e) →
        feed cfg fs = (f1, some e))
    ∧ (∀ (cfg : Cfg) (fs : FS) (entries : List String) (f1 : List Finding)
        (m i u : List String) (f2 : List Finding) (r : List (String × Nat)) (e : String),
        fs.pkgListing = .ok entries →
        scanEntries cfg fs entries = (f1, m, i, u, none) →
        processTriples cfg fs (treeTriples fs) = (f2, r, some e) →
        feed cfg fs = (f1 ++ aggrFindings m i u ++ f2, some e)) := by
  refine ⟨?_, ?_, ?_, ?_, ?_, ?_, ?_⟩
  · intro cfg fs name rest F bytes msg hig hec hx hct hdec
    have herr : (entryScan cfg fs name).2.2.2.2 = none :=
      entryScan_err_none hig hec (fun _ => ⟨bytes, hct⟩)
    rcases @scanEntries_cons_ok cfg fs name rest herr with ⟨hfst, hsnd⟩
    refine ⟨?_, hsnd⟩
    rw [hfst]
    apply List.mem_append.mpr
    left
    rw [entryScan_fst hig hec]
    apply List.mem_append.mpr
    right
    simp [utf8Tail, hx, hct, hdec]
  · intro cfg fs e hls
    simp [feed, hls]
  · intro cfg fs name rest e hig hec
    simp [scanEntries, entryScan_execErr hig hec]
  · intro cfg fs name rest F e hig hec hx hct
    have hig2 : ¬ fs.gitignored (cfg.pkgPath ++ "/" ++ name) = true := by simp [hig]
    have hes : entryScan cfg fs name =
        (F ++ bannedFinding name name, [], [], [], some e) := by
      simp [entryScan, hig2, hec, hx, hct]
    simp [scanEntries, hes]
  · intro cfg fs rel name rest ts e hig hls
    simp [processTriples, processFiles, fileStep_lstatErr hig hls]
  · intro cfg fs entries f1 m i u e hls hse
    simp [feed, hls, hse]
  · intro cfg fs entries f1 m i u f2 r e hls hse hpt
    simp [feed, hls, hse, hpt]

/-- C3, witness: a decode failure is reported and does not abort; an
unlistable package directory aborts; a per-entry stat failure, a
per-entry open or read failure and a walk lstat failure each abort
their pass, and either abort surfaces in the whole feed run. -/
theorem c3_witness :
    (Finding.InvalidUTF8 "x.ebuild" "invalid start byte"
        ∈ (scanEntries exCfg exFSC3b ["x.ebuild"]).1
      ∧ (scanEntries exCfg exFSC3b ["x.ebuild"]).2.2.2.2 =
          (scanEntries exCfg exFSC3b []).2.2.2.2)
    ∧ feed exCfg exFSC3c = ([], some "ENOENT")
    ∧ (scanEntries exCfg exFSC3 ["bad", "z!!"]).2.2.2.2 = some "EACCES"
    ∧ (scanEntries exCfg exFSC3d ["x.ebuild"]).2.2.2.2 = some "EIO"
    ∧ (processTriples exCfg exFSC3e [("files", ["boom"])]).2.2 = some "EPERM"
    ∧ feed exCfg exFSC3 = ([], some "EACCES")
    ∧ feed exCfg exFSC3e = ([] ++ aggrFindings [] [] [] ++ [], some "EPERM") :=
  ⟨c3_amended.1 exCfg exFSC3b "x.ebuild" [] [] [255] "invalid start byte"
      rfl rfl (by decide) rfl rfl,
   c3_amended.2.1 exCfg exFSC3c "ENOENT" rfl,
   c3_amended.2.2.1 exCfg exFSC3 "bad" ["z!!"] "EACCES" rfl rfl,
   c3_amended.2.2.2.1 exCfg exFSC3d "x.ebuild" [] [] "EIO" rfl rfl (by decide) rfl,
   c3_amended.2.2.2.2.1 exCfg exFSC3e "files" "boom" [] [] "EPERM" rfl rfl,
   c3_amended.2.2.2.2.2.1 exCfg exFSC3 ["bad", "z!!"] [] [] [] [] "EACCES" rfl rfl,
   c3_amended.2.2.2.2.2.2 exCfg exFSC3e [] [] [] [] [] [] [] "EPERM" rfl rfl rfl⟩

theorem scanEntries_congr {cfg : Cfg} {fsA fsB : FS}
    (h : ∀ n, entryScan cfg fsA n = entryScan cfg fsB n) :
    ∀ L, scanEntries cfg fsA L = scanEntries cfg fsB L
  | [] => rfl
  | n :: rest => by
    rcases hes : entryScan cfg fsB n with ⟨f, m, i, u, e⟩
    have hesA : entryScan cfg fsA n = (f, m, i, u, e) := by rw [h n, hes]
    have ih := scanEntries_congr h rest
    cases e <;> simp [scanEntries, hes, hesA, ih]

theorem processFiles_congr {cfg : Cfg} {fsA fsB : FS}
    (h : ∀ rel n, fileStep cfg fsA rel n = fileStep cfg fsB rel n) (rel : String) :
    ∀ names, processFiles cfg fsA rel names = processFiles cfg fsB rel names
  | [] => rfl
  | n :: rest => by
    rcases hes : fileStep cfg fsB rel n with ⟨f, r, e⟩
    have hesA : fileStep cfg fsA rel n = (f, r, e) := by rw [h rel n, hes]
    have ih := processFiles_congr h rel rest
    cases e <;> simp [processFiles, hes, hesA, ih]

theorem processTriples_congr {cfg : Cfg} {fsA fsB : FS}
    (h : ∀ rel n, fileStep cfg fsA rel n = fileStep cfg fsB rel n) :
    ∀ ts, processTriples cfg fsA ts = processTriples cfg fsB ts
  | [] => rfl
  | t :: rest => by
    rcases hes : processFiles cfg fsB t.1 t.2 with ⟨f, r, e⟩
    have hesA : processFiles cfg fsA t.1 t.2 = (f, r, e) := by
      rw [processFiles_congr h t.1 t.2, hes]
    have ih := processTriples_congr h rest
    cases e <;> simp [processTriples, hes, hesA, ih]

theorem feed_with_listing (cfg : Cfg) (fs : FS) (L : List String) :
    feed cfg { fs with pkgListing := .ok L } =
      (match scanEntries cfg fs L with
       | (f1, _, _, _, some e) => (f1, some e)
       | (f1, mis, inv, unk, none) =>
         match processTriples cfg fs (treeTriples fs) with
         | (f2, _, some e) => (f1 ++ aggrFindings mis inv unk ++ f2, some e)
         | (f2, recs, none) =>
           (f1 ++ aggrFindings mis inv unk ++ f2
             ++ dupFindings cfg.pkgPath fs.digest (groupBySize recs), none)) := by
  have hen : ∀ n, entryScan cfg { fs with pkgListing := .ok L } n = entryScan cfg fs n :=
    fun _ => rfl
  have hfl : ∀ rel n,
      fileStep cfg { fs with pkgListing := .ok L } rel n = fileStep cfg fs rel n :=
    fun _ _ => rfl
  rcases hseB : scanEntries cfg fs L with ⟨f1, m, i, u, e1⟩
  have hseA : scanEntries cfg { fs with pkgListing := .ok L } L = (f1, m, i, u, e1) := by
    rw [scanEntries_congr hen, hseB]
  cases e1 with
  | some err => simp [feed, hseA]
  | none =>
    rcases hptB : processTriples cfg fs (treeTriples fs) with ⟨f2, r, e2⟩
    have hptA : processTriples cfg { fs with pkgListing := .ok L }
        (treeTriples { fs with pkgListing := .ok L }) = (f2, r, e2) := by
      rw [show treeTriples { fs with pkgListing := .ok L } = treeTriples fs from rfl,
        processTriples_congr hfl, hptB]
    cases e2 <;> simp [feed, hseA, hptA]

theorem scanEntries_skip_ignored (cfg : Cfg) (fs : FS) (l₁ l₂ : List String) (e : String)
    (hig : fs.gitignored (cfg.pkgPath ++ "/" ++ e) = true) :
    scanEntries cfg fs (l₁ ++ e :: l₂) = scanEntries cfg fs (l₁ ++ l₂) := by
  induction l₁ with
  | nil =>
    simp only [List.nil_append]
    rcases hrest : scanEntries cfg fs l₂ with ⟨f2, m2, i2, u2, e2⟩
    simp [scanEntries, entryScan_ignored hig, hrest]
  | cons a rest ih =>
    simp only [List.cons_append]
    rcases ha : entryScan cfg fs a with ⟨f, m, i, u, e1⟩
    cases e1 <;> simp [scanEntries, ha, ih]

theorem processFiles_skip_ignored (cfg : Cfg) (fs : FS) (rel : String)
    (n₁ n₂ : List String) (f : String)
    (hig : fs.gitignored (cfg.pkgPath ++ "/" ++ (rel ++ "/" ++ f)) = true) :
    processFiles cfg fs rel (n₁ ++ f :: n₂) = processFiles cfg fs rel (n₁ ++ n₂) := by
  induction n₁ with
  | nil =>
    simp only [List.nil_append]
    rcases hrest : processFiles cfg fs rel n₂ with ⟨f2, r2, e2⟩
    simp [processFiles, fileStep_ignored hig, hrest]
  | cons a rest ih =>
    simp only [List.cons_append]
    rcases ha : fileStep cfg fs rel a with ⟨fa, ra, ea⟩
    cases ea <;> simp [processFiles, ha, ih]

theorem processTriples_skip_ignored (cfg : Cfg) (fs : FS)
    (t₁ t₂ : List (String × List String)) (rel : String)
    (n₁ n₂ : List String) (f : String)
    (hig : fs.gitignored (cfg.pkgPath ++ "/" ++ (rel ++ "/" ++ f)) = true) :
    processTriples cfg fs (t₁ ++ (rel, n₁ ++ f :: n₂) :: t₂) =
      processTriples cfg fs (t₁ ++ (rel, n₁ ++ n₂) :: t₂) := by
  induction t₁ with
  | nil =>
    simp only [List.nil_append, processTriples]
    rw [processFiles_skip_ignored cfg fs rel n₁ n₂ f hig]
  | cons t rest ih =>
    simp only [List.cons_append]
    rcases ht : processFiles cfg fs t.1 t.2 with ⟨ft, rt, et⟩
    cases et <;> simp [processTriples, ht, ih]

/-- C8: an entry matched by the ignore predicate triggers no findings of
any kind and is excluded from every check: inserting an ignored entry
into the package directory listing leaves the entire feed output
unchanged, and inserting an ignored file into the file list of any walk
triple leaves the walk output (findings, recorded sizes, and error)
unchanged, even when the ignored entry would otherwise violate every
rule. -/
theorem c8_ignored_invisible :
    (∀ (cfg : Cfg) (fs : FS) (l₁ l₂ : List String) (e : String),
      fs.gitignored (cfg.pkgPath ++ "/" ++ e) = true →
      feed cfg { fs with pkgListing := .ok (l₁ ++ e :: l₂) } =
        feed cfg { fs with pkgListing := .ok (l₁ ++ l₂) })
    ∧ (∀ (cfg : Cfg) (fs : FS) (t₁ t₂ : List (String × List String)) (rel : String)
        (n₁ n₂ : List String) (f : String),
      fs.gitignored (cfg.pkgPath ++ "/" ++ (rel ++ "/" ++ f)) = true →
      processTriples cfg fs (t₁ ++ (rel, n₁ ++ f :: n₂) :: t₂) =
        processTriples cfg fs (t₁ ++ (rel, n₁ ++ n₂) :: t₂)) := by
  constructor
  · intro cfg fs l₁ l₂ e hig
    rw [feed_with_listing, feed_with_listing, scanEntries_skip_ignored cfg fs l₁ l₂ e hig]
  · intro cfg fs t₁ t₂ rel n₁ n₂ f hig
    exact processTriples_skip_ignored cfg fs t₁ t₂ rel n₁ n₂ f hig

/-- C8, witness: on a concrete filesystem where the ignored entry has
executable bits, a banned name would not matter, and an oversized
regular file, adding or removing it changes nothing. -/
theorem c8_witness :
    feed exCfg { exFSC8 with pkgListing := .ok (["a"] ++ "ign" :: []) } =
      feed exCfg { exFSC8 with pkgListing := .ok (["a"] ++ []) }
    ∧ processTriples exCfg exFSC8 ([] ++ ("files", [] ++ "ign" :: ["b"]) :: []) =
        processTriples exCfg exFSC8 ([] ++ ("files", [] ++ ["b"]) :: []) :=
  ⟨c8_ignored_invisible.1 exCfg exFSC8 ["a"] [] "ign" (by decide),
   c8_ignored_invisible.2 exCfg exFSC8 [] [] "files" [] ["b"] "ign" (by decide)⟩

theorem entryScan_contentsErr {cfg : Cfg} {fs : FS} {name : String} {F : List Finding}
    {e : String}
    (hig : fs.gitignored (cfg.pkgPath ++ "/" ++ name) = false)
    (hec : execCheck fs (cfg.pkgPath ++ "/" ++ name) name = .ok F)
    (hx : hasExt name = true)
    (hct : fs.contents (cfg.pkgPath ++ "/" ++ name) = .error e) :
    entryScan cfg fs name = (F ++ bannedFinding name name, [], [], [], some e) := by
  have hig2 : ¬ fs.gitignored (cfg.pkgPath ++ "/" ++ name) = true := by simp [hig]
  simp [entryScan, hig2, hec, hx, hct]

theorem entryScan_contentsOk {cfg : Cfg} {fs : FS} {name : String} {F : List Finding}
    {bytes : List Nat}
    (hig : fs.gitignored (cfg.pkgPath ++ "/" ++ name) = false)
    (hec : execCheck fs (cfg.pkgPath ++ "/" ++ name) name = .ok F)
    (hx : hasExt name = true)
    (hct : fs.contents (cfg.pkgPath ++ "/" ++ name) = .ok bytes) :
    entryScan cfg fs name =
      (F ++ bannedFinding name name
        ++ (match utf8Decode (bytes.take 8192) with
            | .error msg => [Finding.InvalidUTF8 name msg]
            | .ok _ => []),
       (match cfg.atomPkg ("=" ++ cfg.category ++ "/" ++ basename (stripExt name)) with
        | some p => if p ≠ basename cfg.pkgPath then [basename (stripExt name)] else []
        | none => []),
       (match cfg.atomPkg ("=" ++ cfg.category ++ "/" ++ basename (stripExt name)) with
        | some _ => []
        | none => [basename (stripExt name)]),
       [], none) := by
  have hig2 : ¬ fs.gitignored (cfg.pkgPath ++ "/" ++ name) = true := by simp [hig]
  rcases hdec : utf8Decode (bytes.take 8192) with msg | u
  · rcases hat : cfg.atomPkg ("=" ++ cfg.category ++ "/" ++ basename (stripExt name))
        with _ | p
    · simp [entryScan, hig2, hec, hx, hct, hdec, hat]
    · by_cases hp : p ≠ basename cfg.pkgPath <;>
        simp [entryScan, hig2, hec, hx, hct, hdec, hat, hp]
  · rcases hat : cfg.atomPkg ("=" ++ cfg.category ++ "/" ++ basename (stripExt name))
        with _ | p
    · simp [entryScan, hig2, hec, hx, hct, hdec, hat]
    · by_cases hp : p ≠ basename cfg.pkgPath <;>
        simp [entryScan, hig2, hec, hx, hct, hdec, hat, hp]

theorem entryScan_noExt {cfg : Cfg} {fs : FS} {name : String} {F : List Finding}
    (hig : fs.gitignored (cfg.pkgPath ++ "/" ++ name) = false)
    (hec : execCheck fs (cfg.pkgPath ++ "/" ++ name) name = .ok F)
    (hx : hasExt name = false) :
    entryScan cfg fs name =
      (F ++ bannedFinding name name, [], [],
       (if cfg.gentooRepo = true ∧ name ∉ allowListNames then [name] else []), none) := by
  have hig2 : ¬ fs.gitignored (cfg.pkgPath ++ "/" ++ name) = true := by simp [hig]
  have hx2 : ¬ hasExt name = true := by simp [hx]
  by_cases hu : cfg.gentooRepo = true ∧ name ∉ allowListNames <;>
    simp [entryScan, hig2, hec, hx2, hu]

theorem entryScan_contents_congr (cfg : Cfg) (fs : FS)
    (g : String → Except String (List Nat))
    (hpre : ∀ q, (fs.contents q).map (fun l => l.take 8192) =
      (g q).map (fun l => l.take 8192)) (n : String) :
    entryScan cfg { fs with contents := g } n = entryScan cfg fs n := by
  have hq := hpre (cfg.pkgPath ++ "/" ++ n)
  by_cases hig : fs.gitignored (cfg.pkgPath ++ "/" ++ n) = true
  · rw [@entryScan_ignored cfg { fs with contents := g } n hig, entryScan_ignored hig]
  · have hig2 : fs.gitignored (cfg.pkgPath ++ "/" ++ n) = false := by
      revert hig
      cases fs.gitignored (cfg.pkgPath ++ "/" ++ n) <;> simp
    rcases hec : execCheck fs (cfg.pkgPath ++ "/" ++ n) n with e | F
    · rw [@entryScan_execErr cfg { fs with contents := g } n _ hig2 hec,
        entryScan_execErr hig2 hec]
    · by_cases hx : hasExt n = true
      · rcases hc1 : fs.contents (cfg.pkgPath ++ "/" ++ n) with e1 | b1
        · rcases hc2 : g (cfg.pkgPath ++ "/" ++ n) with e2 | b2
          · rw [hc1, hc2] at hq
            simp only [Except.map] at hq
            injection hq with he
            subst he
            rw [@entryScan_contentsErr cfg { fs with contents := g } n F _ hig2 hec hx hc2,
              entryScan_contentsErr hig2 hec hx hc1]
          · rw [hc1, hc2] at hq
            simp [Except.map] at hq
        · rcases hc2 : g (cfg.pkgPath ++ "/" ++ n) with e2 | b2
          · rw [hc1, hc2] at hq
            simp [Except.map] at hq
          · rw [hc1, hc2] at hq
            simp only [Except.map, Except.ok.injEq] at hq
            rw [@entryScan_contentsOk cfg { fs with contents := g } n F _ hig2 hec hx hc2,
              entryScan_contentsOk hig2 hec hx hc1, hq]
      · have hx2 : hasExt n = false := by
          revert hx
          cases hasExt n <;> simp
        rw [@entryScan_noExt cfg { fs with contents := g } n F hig2 hec hx2,
          entryScan_noExt hig2 hec hx2]

theorem feed_congr {cfg : Cfg} {fsA fsB : FS}
    (hls : fsA.pkgListing = fsB.pkgListing)
    (hen : ∀ n, entryScan cfg fsA n = entryScan cfg fsB n)
    (hfl : ∀ rel n, fileStep cfg fsA rel n = fileStep cfg fsB rel n)
    (htr : treeTriples fsA = treeTriples fsB)
    (hdg : fsA.digest = fsB.digest) :
    feed cfg fsA = feed cfg fsB := by
  rcases hx : fsB.pkgListing with e | entries
  · have hxA : fsA.pkgListing = .error e := by rw [hls, hx]
    simp [feed, hx, hxA]
  · have hxA : fsA.pkgListing = .ok entries := by rw [hls, hx]
    rcases hseB : scanEntries cfg fsB entries with ⟨f1, m, i, u, e1⟩
    have hseA : scanEntries cfg fsA entries = (f1, m, i, u, e1) := by
      rw [scanEntries_congr hen, hseB]
    cases e1 with
    | some err => simp [feed, hx, hxA, hseA, hseB]
    | none =>
      rcases hptB : processTriples cfg fsB (treeTriples fsB) with ⟨f2, r, e2⟩
      have hptA : processTriples cfg fsA (treeTriples fsA) = (f2, r, e2) := by
        rw [htr, processTriples_congr hfl, hptB]
      cases e2 with
      | some err => simp [feed, hx, hxA, hseA, hseB, hptA, hptB]
      | none => simp [feed, hx, hxA, hseA, hseB, hptA, hptB, hdg]

theorem feed_mem_phaseA {cfg : Cfg} {fs : FS} {entries : List String} {name : String}
    {fd : Finding}
    (hls : fs.pkgListing = .ok entries)
    (hsucc : (feed cfg fs).2 = none)
    (hn : name ∈ entries)
    (hfd : fd ∈ (entryScan cfg fs name).1) :
    fd ∈ (feed cfg fs).1 := by
  rcases feed_success_parts hsucc with ⟨entries2, hls2, h1, h2⟩
  have he : entries2 = entries := by
    rw [hls] at hls2
    injection hls2 with he
    exact he.symm
  subst he
  rw [feed_of_success hls2 h1 h2]
  simp only
  apply List.mem_append.mpr
  left
  apply List.mem_append.mpr
  left
  apply List.mem_append.mpr
  left
  have hall := (scanEntries_err_none_iff cfg fs entries2).mp h1
  rw [scanEntries_of_all_ok cfg fs hall]
  show fd ∈ entries2.flatMap (fun n => (entryScan cfg fs n).1)
  exact List.mem_flatMap.mpr ⟨name, hn, hfd⟩

theorem feed_mem_walk {cfg : Cfg} {fs : FS} {t : String × List String} {name : String}
    {fd : Finding}
    (hsucc : (feed cfg fs).2 = none)
    (ht : t ∈ treeTriples fs) (hn : name ∈ t.2)
    (hfd : fd ∈ (fileStep cfg fs t.1 name).1) :
    fd ∈ (feed cfg fs).1 := by
  rcases feed_success_parts hsucc with ⟨entries, hls, h1, h2⟩
  rw [feed_of_success hls h1 h2]
  simp only
  apply List.mem_append.mpr
  left
  apply List.mem_append.mpr
  right
  have hallT := (processTriples_err_none_iff cfg fs (treeTriples fs)).mp h2
  rw [processTriples_of_all_ok cfg fs hallT]
  show fd ∈ (treeTriples fs).flatMap (fun t => (processFiles cfg fs t.1 t.2).1)
  refine List.mem_flatMap.mpr ⟨t, ht, ?_⟩
  have hallF := (processFiles_err_none_iff cfg fs t.1 t.2).mp (hallT t ht)
  rw [processFiles_of_all_ok cfg fs t.1 hallF]
  show fd ∈ t.2.flatMap (fun n => (fileStep cfg fs t.1 n).1)
  exact List.mem_flatMap.mpr ⟨name, hn, hfd⟩

/-- C9: for a recipe entry, at most the first 8192 bytes are read and
decoded: the entire feed output depends only on the 8192-byte prefixes
(and error statuses) of file contents; and when the bounded read
succeeds, an InvalidUTF8 finding for the entry is yielded exactly when
that bounded prefix fails strict UTF-8 decoding, regardless of the
bytes beyond the prefix. -/
theorem c9_utf8_bounded :
    (∀ (cfg : Cfg) (fs : FS) (g : String → Except String (List Nat)),
      (∀ q, (fs.contents q).map (fun l => l.take 8192) =
        (g q).map (fun l => l.take 8192)) →
      feed cfg { fs with contents := g } = feed cfg fs)
    ∧ (∀ (cfg : Cfg) (fs : FS) (entries : List String) (name : String)
        (F : List Finding) (bytes : List Nat),
      fs.pkgListing = .ok entries → name ∈ entries →
      fs.gitignored (cfg.pkgPath ++ "/" ++ name) = false →
      execCheck fs (cfg.pkgPath ++ "/" ++ name) name = .ok F →
      hasExt name = true →
      fs.contents (cfg.pkgPath ++ "/" ++ name) = .ok bytes →
      (feed cfg fs).2 = none →
      (∀ msg, utf8Decode (bytes.take 8192) = .error msg →
        Finding.InvalidUTF8 name msg ∈ (feed cfg fs).1)
      ∧ (utf8Decode (bytes.take 8192) = .ok () →
        ∀ msg, Finding.InvalidUTF8 name msg ∉ (feed cfg fs).1)) := by
  constructor
  · intro cfg fs g hpre
    exact feed_congr rfl (entryScan_contents_congr cfg fs g hpre) (fun _ _ => rfl) rfl rfl
  · intro cfg fs entries name F bytes hls hn hig hec hx hct hsucc
    constructor
    · intro msg hdec
      refine feed_mem_phaseA hls hsucc hn ?_
      rw [entryScan_fst hig hec]
      apply List.mem_append.mpr
      right
      simp [utf8Tail, hx, hct, hdec]
    · intro hdec msg hmem
      rcases mem_feed_src hmem with h | h | h | h
      · rcases h with ⟨entries2, _, n, _, hfd⟩
        rcases mem_entryScan hfd with ⟨_, hshape⟩
        rcases hshape with ⟨_, _, _, _, he⟩ | ⟨_, he⟩ | ⟨bytes2, msg2, _, hct2, hdec2, he⟩
        · exact absurd he (by simp)
        · exact absurd he (by simp)
        · injection he with hn2 hm2
          subst hn2
          rw [hct] at hct2
          injection hct2 with hb
          subst hb
          rw [hdec] at hdec2
          exact absurd hdec2 (by simp)
      · rcases h with ⟨mis, inv, unk, hfd⟩
        rcases mem_aggrFindings hfd with ⟨l, he⟩ | ⟨l, he⟩ | ⟨l, he⟩ <;>
          exact absurd he (by simp)
      · rcases h with ⟨t, _, n, _, hfd⟩
        rcases mem_fileStep hfd with ⟨_, st, _, _, hshape⟩
        rcases hshape with ⟨he, _⟩ | ⟨he, _⟩ | ⟨he, _⟩ | ⟨he, _⟩ <;>
          exact absurd he (by simp)
      · rcases h with ⟨m2, hfd⟩
        rcases mem_dupFindings hfd with ⟨g2, _, _, he⟩
        exact absurd he (by simp)

/-- C9, witness: replacing the contents map by itself (equal prefixes)
preserves the run, and the invalid third byte of the recipe file is
reported. -/
theorem c9_witness :
    feed exCfg { exFSC9 with contents := exFSC9.contents } = feed exCfg exFSC9
    ∧ Finding.InvalidUTF8 "y.ebuild" "invalid start byte" ∈ (feed exCfg exFSC9).1 :=
  ⟨c9_utf8_bounded.1 exCfg exFSC9 exFSC9.contents (fun _ => rfl),
   (c9_utf8_bounded.2 exCfg exFSC9 ["y.ebuild"] "y.ebuild" [] [104, 105, 255]
      rfl (by decide) rfl rfl (by decide) rfl rfl).1 "invalid start byte" rfl⟩

theorem charToNat_inj {c d : Char} (h : c.toNat = d.toNat) : c = d := by
  have h2 := Char.ofNat_toNat c
  rw [← h2, h, Char.ofNat_toNat]

theorem mem_insChar {x c : Char} {l : List Char} :
    x ∈ insChar c l ↔ x = c ∨ x ∈ l := by
  induction l with
  | nil => simp [insChar]
  | cons d rest ih =>
    simp only [insChar]
    by_cases he : c = d
    · rw [if_pos he]
      subst he
      simp only [List.mem_cons]
      tauto
    · rw [if_neg he]
      by_cases hlt : c.toNat < d.toNat
      · rw [if_pos hlt]
        simp [List.mem_cons]
      · rw [if_neg hlt]
        simp only [List.mem_cons, ih]
        tauto

theorem pairwise_insChar {c : Char} {l : List Char}
    (hl : l.Pairwise (fun a b => a.toNat < b.toNat)) :
    (insChar c l).Pairwise (fun a b => a.toNat < b.toNat) := by
  induction l with
  | nil => simp [insChar]
  | cons d rest ih =>
    rcases List.pairwise_cons.mp hl with ⟨hd, hrest⟩
    simp only [insChar]
    by_cases he : c = d
    · rw [if_pos he]
      exact hl
    · rw [if_neg he]
      by_cases hlt : c.toNat < d.toNat
      · rw [if_pos hlt]
        refine List.pairwise_cons.mpr ⟨?_, hl⟩
        intro b hb
        rcases List.mem_cons.mp hb with rfl | hb
        · exact hlt
        · exact Nat.lt_trans hlt (hd b hb)
      · rw [if_neg hlt]
        refine List.pairwise_cons.mpr ⟨?_, ih hrest⟩
        intro b hb
        rcases mem_insChar.mp hb with rfl | hb
        · have hne : ¬ b.toNat = d.toNat := fun h2 => he (charToNat_inj h2)
          omega
        · exact hd b hb

theorem bannedChars_sorted (s : String) :
    (bannedChars s).Pairwise (fun a b => a.toNat < b.toNat) := by
  unfold bannedChars
  induction (s.toList.filter fun c => ! allowedChar c) with
  | nil => simp
  | cons c rest ih =>
    simp only [List.foldr_cons]
    exact pairwise_insChar ih

theorem mem_bannedChars {x : Char} {s : String} :
    x ∈ bannedChars s ↔ x ∈ s.toList ∧ allowedChar x = false := by
  unfold bannedChars
  have hfold : ∀ l : List Char, x ∈ l.foldr insChar [] ↔ x ∈ l := by
    intro l
    induction l with
    | nil => simp
    | cons c rest ih => simp only [List.foldr_cons, mem_insChar, ih, List.mem_cons]
  rw [hfold, List.mem_filter]
  simp [Bool.not_eq_true']

/-- C4, counterexample: the claim demands a BannedCharacter finding for
every entry inside the files subtree whose name holds a banned
character; on exFSC4 the files subtree holds a symlink named bad!link
and the run completes with no finding at all, because the walk applies
its checks, the character check included, only to regular files. -/
theorem c4_counterexample :
    bannedChars "bad!link" = ['!']
    ∧ feed exCfg exFSC4 = ([], none) := by
  constructor
  · decide
  · rfl

/-- C4, amended: every non-ignored package directory entry, and every
non-ignored REGULAR file inside the files subtree, whose name holds a
character outside the allowed set yields a BannedCharacter finding
carrying exactly the sorted, duplicate-free offending characters of its
base name; and every BannedCharacter finding any run yields carries a
non-empty character list of that exact form. Non-regular entries inside
files/ (symlinks, subdirectory names) and ignored entries yield no
BannedCharacter finding. -/
theorem c4_amended :
    (∀ (cfg : Cfg) (fs : FS) (entries : List String) (name : String) (F : List Finding),
      fs.pkgListing = .ok entries → name ∈ entries →
      fs.gitignored (cfg.pkgPath ++ "/" ++ name) = false →
      execCheck fs (cfg.pkgPath ++ "/" ++ name) name = .ok F →
      (feed cfg fs).2 = none →
      bannedChars name ≠ [] →
      Finding.BannedCharacter name (bannedChars name) ∈ (feed cfg fs).1)
    ∧ (∀ (cfg : Cfg) (fs : FS) (t : String × List String) (name : String) (st : StatInfo),
      t ∈ treeTriples fs → name ∈ t.2 →
      fs.gitignored (cfg.pkgPath ++ "/" ++ (t.1 ++ "/" ++ name)) = false →
      fs.lstat (cfg.pkgPath ++ "/" ++ (t.1 ++ "/" ++ name)) = .ok st →
      isReg st.mode = true →
      (feed cfg fs).2 = none →
      bannedChars name ≠ [] →
      Finding.BannedCharacter (t.1 ++ "/" ++ name) (bannedChars name) ∈ (feed cfg fs).1)
    ∧ (∀ s : String, (bannedChars s).Pairwise (fun a b => a.toNat < b.toNat)
        ∧ ∀ c, c ∈ bannedChars s ↔ c ∈ s.toList ∧ allowedChar c = false)
    ∧ (∀ (cfg : Cfg) (fs : FS) (p : String) (cs : List Char),
        Finding.BannedCharacter p cs ∈ (feed cfg fs).1 →
        cs ≠ [] ∧ ∃ name, cs = bannedChars name) := by
  refine ⟨?_, ?_, ?_, ?_⟩
  · intro cfg fs entries name F hls hn hig hec hsucc hbn
    refine feed_mem_phaseA hls hsucc hn ?_
    rw [entryScan_fst hig hec]
    apply List.mem_append.mpr
    left
    apply List.mem_append.mpr
    right
    unfold bannedFinding
    rw [if_neg hbn]
    simp
  · intro cfg fs t name st ht hn hig hls hreg hsucc hbn
    refine feed_mem_walk hsucc ht hn ?_
    rw [show (fileStep cfg fs t.1 name).1 =
        (if st.mode &&& 0o111 ≠ 0 then [Finding.ExecutableFile (t.1 ++ "/" ++ name)] else [])
        ++ (if st.size = 0 then [Finding.EmptyFile (t.1 ++ "/" ++ name)]
            else if 20480 < st.size
            then [Finding.SizeViolation (t.1 ++ "/" ++ name) st.size] else [])
        ++ bannedFinding (t.1 ++ "/" ++ name) name by
      rw [fileStep_reg hig hls hreg]]
    apply List.mem_append.mpr
    right
    unfold bannedFinding
    rw [if_neg hbn]
    simp
  · intro s
    exact ⟨bannedChars_sorted s, fun c => mem_bannedChars⟩
  · intro cfg fs p cs hmem
    rcases mem_feed_src hmem with h | h | h | h
    · rcases h with ⟨entries, _, n, _, hfd⟩
      rcases mem_entryScan hfd with ⟨_, hshape⟩
      rcases hshape with ⟨_, _, _, _, he⟩ | ⟨hne, he⟩ | ⟨_, _, _, _, _, he⟩
      · exact absurd he (by simp)
      · injection he with hp hc
        subst hc
        exact ⟨hne, n, rfl⟩
      · exact absurd he (by simp)
    · rcases h with ⟨mis, inv, unk, hfd⟩
      rcases mem_aggrFindings hfd with ⟨l, he⟩ | ⟨l, he⟩ | ⟨l, he⟩ <;>
        exact absurd he (by simp)
    · rcases h with ⟨t, _, n, _, hfd⟩
      rcases mem_fileStep hfd with ⟨_, st, _, _, hshape⟩
      rcases hshape with ⟨he, _⟩ | ⟨he, _⟩ | ⟨he, _⟩ | ⟨he, hne⟩
      · exact absurd he (by simp)
      · exact absurd he (by simp)
      · exact absurd he (by simp)
      · injection he with hp hc
        subst hc
        exact ⟨hne, n, rfl⟩
    · rcases h with ⟨m2, hfd⟩
      rcases mem_dupFindings hfd with ⟨g2, _, _, he⟩
      exact absurd he (by simp)

/-- C4, witness: the amended statement at a package directory entry
ba!d, a regular file na?me inside files/, the character-set facts at a
clean name, and the exact-form property at the produced finding. -/
theorem c4_witness :
    Finding.BannedCharacter "ba!d" (bannedChars "ba!d") ∈ (feed exCfg exFSC4w).1
    ∧ Finding.BannedCharacter ("files" ++ "/" ++ "na?me") (bannedChars "na?me")
        ∈ (feed exCfg exFSC4w).1
    ∧ ((bannedChars "xy").Pairwise (fun a b => a.toNat < b.toNat)
        ∧ ∀ c, c ∈ bannedChars "xy" ↔ c ∈ "xy".toList ∧ allowedChar c = false)
    ∧ (['!'] ≠ [] ∧ ∃ name, ['!'] = bannedChars name) :=
  ⟨c4_amended.1 exCfg exFSC4w ["ba!d"] "ba!d" [] rfl (by decide) rfl rfl rfl (by decide),
   c4_amended.2.1 exCfg exFSC4w ("files", ["na?me"]) "na?me" ⟨0o100644, 5⟩
      (by decide) (by decide) rfl rfl (by decide) rfl (by decide),
   c4_amended.2.2.1 "xy",
   c4_amended.2.2.2 exCfg exFSC4w "ba!d" ['!'] (by decide)⟩

theorem mem_feed_success_src {cfg : Cfg} {fs : FS} {fd : Finding} {entries : List String}
    (hls : fs.pkgListing = .ok entries)
    (h1 : (scanEntries cfg fs entries).2.2.2.2 = none)
    (h2 : (processTriples cfg fs (treeTriples fs)).2.2 = none)
    (h : fd ∈ (feed cfg fs).1) :
    (∃ n ∈ entries, fd ∈ (entryScan cfg fs n).1)
    ∨ fd ∈ aggrFindings (scanEntries cfg fs entries).2.1
        (scanEntries cfg fs entries).2.2.1 (scanEntries cfg fs entries).2.2.2.1
    ∨ (∃ t ∈ treeTriples fs, ∃ n ∈ t.2, fd ∈ (fileStep cfg fs t.1 n).1)
    ∨ fd ∈ dupFindings cfg.pkgPath fs.digest
        (groupBySize (processTriples cfg fs (treeTriples fs)).2.1) := by
  rw [feed_of_success hls h1 h2] at h
  simp only at h
  rcases List.mem_append.mp h with h2m | h2m
  · rcases List.mem_append.mp h2m with h3 | h3
    · rcases List.mem_append.mp h3 with h4 | h4
      · exact Or.inl (mem_scanEntries_src h4)
      · exact Or.inr (Or.inl h4)
    · exact Or.inr (Or.inr (Or.inl (mem_processTriples_src h3)))
  · exact Or.inr (Or.inr (Or.inr h2m))

/-- C7: a regular non-ignored file inside the files subtree of size
exactly zero yields an EmptyFile finding and is excluded from the size
grouping, so it yields no SizeViolation and appears in no
DuplicateFiles finding. -/
theorem c7_empty_file :
    ∀ (cfg : Cfg) (fs : FS) (t : String × List String) (name : String) (st : StatInfo),
      t ∈ treeTriples fs → name ∈ t.2 →
      fs.gitignored (cfg.pkgPath ++ "/" ++ (t.1 ++ "/" ++ name)) = false →
      fs.lstat (cfg.pkgPath ++ "/" ++ (t.1 ++ "/" ++ name)) = .ok st →
      isReg st.mode = true → st.size = 0 →
      (feed cfg fs).2 = none →
      Finding.EmptyFile (t.1 ++ "/" ++ name) ∈ (feed cfg fs).1
      ∧ (∀ s, Finding.SizeViolation (t.1 ++ "/" ++ name) s ∉ (feed cfg fs).1)
      ∧ (∀ files, Finding.DuplicateFiles files ∈ (feed cfg fs).1 →
          (t.1 ++ "/" ++ name) ∉ files) := by
  intro cfg fs t name st ht hn hig hls hreg hz hsucc
  rcases feed_success_parts hsucc with ⟨entries, hpls, h1, h2⟩
  refine ⟨?_, ?_, ?_⟩
  · refine feed_mem_walk hsucc ht hn ?_
    rw [show (fileStep cfg fs t.1 name).1 =
        (if st.mode &&& 0o111 ≠ 0 then [Finding.ExecutableFile (t.1 ++ "/" ++ name)] else [])
        ++ (if st.size = 0 then [Finding.EmptyFile (t.1 ++ "/" ++ name)]
            else if 20480 < st.size
            then [Finding.SizeViolation (t.1 ++ "/" ++ name) st.size] else [])
        ++ bannedFinding (t.1 ++ "/" ++ name) name by
      rw [fileStep_reg hig hls hreg]]
    apply List.mem_append.mpr
    left
    apply List.mem_append.mpr
    right
    rw [if_pos hz]
    simp
  · intro s hmem
    rcases mem_feed_success_src hpls h1 h2 hmem with h | h | h | h
    · rcases h with ⟨n, _, hfd⟩
      rcases mem_entryScan hfd with ⟨_, hshape⟩
      rcases hshape with ⟨_, _, _, _, he⟩ | ⟨_, he⟩ | ⟨_, _, _, _, _, he⟩ <;>
        exact absurd he (by simp)
    · rcases mem_aggrFindings h with ⟨l, he⟩ | ⟨l, he⟩ | ⟨l, he⟩ <;>
        exact absurd he (by simp)
    · rcases h with ⟨t2, _, n2, _, hfd⟩
      rcases mem_fileStep hfd with ⟨_, st2, hls2, _, hshape⟩
      rcases hshape with ⟨he, _⟩ | ⟨he, _⟩ | ⟨he, _, hnz⟩ | ⟨he, _⟩
      · exact absurd he (by simp)
      · exact absurd he (by simp)
      · injection he with hpath hsz
        rw [← hpath] at hls2
        rw [hls] at hls2
        injection hls2 with hst
        rw [hst] at hz
        exact hnz hz
      · exact absurd he (by simp)
    · rcases mem_dupFindings h with ⟨g2, _, _, he⟩
      exact absurd he (by simp)
  · intro files hmem hp
    rcases mem_feed_success_src hpls h1 h2 hmem with h | h | h | h
    · rcases h with ⟨n, _, hfd⟩
      rcases mem_entryScan hfd with ⟨_, hshape⟩
      rcases hshape with ⟨_, _, _, _, he⟩ | ⟨_, he⟩ | ⟨_, _, _, _, _, he⟩ <;>
        exact absurd he (by simp)
    · rcases mem_aggrFindings h with ⟨l, he⟩ | ⟨l, he⟩ | ⟨l, he⟩ <;>
        exact absurd he (by simp)
    · rcases h with ⟨t2, _, n2, _, hfd⟩
      rcases mem_fileStep hfd with ⟨_, st2, hls2, _, hshape⟩
      rcases hshape with ⟨he, _⟩ | ⟨he, _⟩ | ⟨he, _⟩ | ⟨he, _⟩ <;>
        exact absurd he (by simp)
    · rcases mem_dupFindings h with ⟨g2, hg2, _, he⟩
      injection he with hfiles
      subst hfiles
      have hp2 : (t.1 ++ "/" ++ name) ∈ g2.2 := mem_sortStrs.mp hp
      have hb : bucket g2.1 (filesByDigest cfg.pkgPath fs.digest
          (groupBySize (processTriples cfg fs (treeTriples fs)).2.1)) = g2.2 :=
        bucket_of_mem hg2 (nodup_keys_filesByDigest _ _ _)
      rw [bucket_filesByDigest] at hb
      rw [← hb] at hp2
      have hcall : (t.1 ++ "/" ++ name) ∈
          digestCalls (groupBySize (processTriples cfg fs (treeTriples fs)).2.1) :=
        (List.mem_filter.mp hp2).1
      rcases mem_digestCalls_groupBySize.mp hcall with ⟨s2, hrec, _⟩
      rcases mem_processTriples_rec_src hrec with ⟨t2, _, n2, _, hstep⟩
      rcases mem_fileStep_rec hstep with ⟨hpath, _, st2, hls2, _, hsz, hnz⟩
      rw [← hpath] at hls2
      rw [hls] at hls2
      injection hls2 with hst
      rw [← hst] at hsz
      rw [hz] at hsz
      exact hnz hsz.symm

/-- C7, witness: the statement at a concrete zero-byte regular file. -/
theorem c7_witness :
    Finding.EmptyFile ("files" ++ "/" ++ "zero") ∈ (feed exCfg exFSC7).1
    ∧ (∀ s, Finding.SizeViolation ("files" ++ "/" ++ "zero") s ∉ (feed exCfg exFSC7).1)
    ∧ (∀ files, Finding.DuplicateFiles files ∈ (feed exCfg exFSC7).1 →
        ("files" ++ "/" ++ "zero") ∉ files) :=
  c7_empty_file exCfg exFSC7 ("files", ["zero"]) "zero" ⟨0o100644, 0⟩
    (by decide) (by decide) rfl rfl (by decide) rfl rfl

theorem processTriples_cons_ok {cfg : Cfg} {fs : FS} {t : String × List String}
    {rest : List (String × List String)}
    (h : (processFiles cfg fs t.1 t.2).2.2 = none) :
    (processTriples cfg fs (t :: rest)).1 =
      (processFiles cfg fs t.1 t.2).1 ++ (processTriples cfg fs rest).1 := by
  rcases hpf : processFiles cfg fs t.1 t.2 with ⟨f, r, e⟩
  rw [hpf] at h
  simp only at h
  subst h
  rcases hpt : processTriples cfg fs rest with ⟨f2, r2, e2⟩
  simp [processTriples, hpf, hpt]

theorem processTriples_pairs {cfg : Cfg} {fs : FS} :
    ∀ {ts : List (String × List String)},
      (∀ t ∈ ts, (processFiles cfg fs t.1 t.2).2.2 = none) →
      (processTriples cfg fs ts).1 =
        (ts.flatMap (fun t => t.2.map (fun n => (t.1, n)))).flatMap
          (fun pr => (fileStep cfg fs pr.1 pr.2).1)
  | [], _ => by simp [processTriples]
  | t :: rest, hall => by
    have ht := hall t (List.mem_cons_self _ _)
    have hallF := (processFiles_err_none_iff cfg fs t.1 t.2).mp ht
    have hpf1 : (processFiles cfg fs t.1 t.2).1 =
        t.2.flatMap (fun n => (fileStep cfg fs t.1 n).1) := by
      rw [processFiles_of_all_ok cfg fs t.1 hallF]
    have ih := processTriples_pairs (fun x hx => hall x (List.mem_cons_of_mem _ hx))
    rw [processTriples_cons_ok ht, hpf1, ih]
    simp only [List.flatMap_cons, List.flatMap_append, List.flatMap_map]

theorem sum_map_eq_single {α : Type} (cnt : α → Nat) (key : α → String) :
    ∀ (q : List α) (a0 : α), a0 ∈ q → ((q.map key).Nodup) →
      (∀ a ∈ q, key a ≠ key a0 → cnt a = 0) →
      (∀ a ∈ q, key a = key a0 → cnt a = cnt a0) →
      (q.map cnt).sum = cnt a0 := by
  intro q
  induction q with
  | nil =>
    intro a0 h
    simp at h
  | cons b rest ih =>
    intro a0 ha0 hnd hz he
    simp only [List.map_cons, List.nodup_cons] at hnd
    simp only [List.map_cons, List.sum_cons]
    by_cases hb : key b = key a0
    · have hb0 : cnt b = cnt a0 := he b (List.mem_cons_self _ _) hb
      have hrest0 : (rest.map cnt).sum = 0 := by
        apply List.sum_eq_zero
        intro x hx
        rcases List.mem_map.mp hx with ⟨a, ha, rfl⟩
        apply hz a (List.mem_cons_of_mem _ ha)
        intro hk
        apply hnd.1
        rw [hb, ← hk]
        exact List.mem_map_of_mem key ha
      rw [hb0, hrest0]
      omega
    · have hb0 : cnt b = 0 := hz b (List.mem_cons_self _ _) hb
      have ha0r : a0 ∈ rest := by
        rcases List.mem_cons.mp ha0 with rfl | h
        · exact absurd rfl hb
        · exact h
      rw [hb0, ih a0 ha0r hnd.2 (fun a ha => hz a (List.mem_cons_of_mem _ ha))
        (fun a ha => he a (List.mem_cons_of_mem _ ha))]
      simp

/-- C6: a regular non-ignored file inside the files subtree yields a
SizeViolation finding carrying its exact byte count exactly when its
size is strictly greater than 20480 bytes: at exactly 20480 bytes no
SizeViolation is yielded, above the ceiling exactly one is. -/
theorem c6_size_threshold :
    ∀ (cfg : Cfg) (fs : FS) (t : String × List String) (name : String) (st : StatInfo),
      t ∈ treeTriples fs → name ∈ t.2 →
      fs.gitignored (cfg.pkgPath ++ "/" ++ (t.1 ++ "/" ++ name)) = false →
      fs.lstat (cfg.pkgPath ++ "/" ++ (t.1 ++ "/" ++ name)) = .ok st →
      isReg st.mode = true →
      (feed cfg fs).2 = none →
      (walkRelpaths fs).Nodup →
      (∀ s2, Finding.SizeViolation (t.1 ++ "/" ++ name) s2 ∈ (feed cfg fs).1 ↔
        (s2 = st.size ∧ 20480 < st.size))
      ∧ (feed cfg fs).1.count (Finding.SizeViolation (t.1 ++ "/" ++ name) st.size)
          = if 20480 < st.size then 1 else 0 := by
  intro cfg fs t name st ht hn hig hls hreg hsucc hnd
  rcases feed_success_parts hsucc with ⟨entries, hpls, h1, h2⟩
  have hcnt : ∀ rel2 n2, rel2 ++ "/" ++ n2 = t.1 ++ "/" ++ name →
      (fileStep cfg fs rel2 n2).1.count
        (Finding.SizeViolation (t.1 ++ "/" ++ name) st.size)
        = if 20480 < st.size then 1 else 0 := by
    intro rel2 n2 hkey
    have hig2 : fs.gitignored (cfg.pkgPath ++ "/" ++ (rel2 ++ "/" ++ n2)) = false := by
      rw [hkey]
      exact hig
    have hls2 : fs.lstat (cfg.pkgPath ++ "/" ++ (rel2 ++ "/" ++ n2)) = .ok st := by
      rw [hkey]
      exact hls
    rw [show (fileStep cfg fs rel2 n2).1 =
        (if st.mode &&& 0o111 ≠ 0 then [Finding.ExecutableFile (rel2 ++ "/" ++ n2)] else [])
        ++ (if st.size = 0 then [Finding.EmptyFile (rel2 ++ "/" ++ n2)]
            else if 20480 < st.size
            then [Finding.SizeViolation (rel2 ++ "/" ++ n2) st.size] else [])
        ++ bannedFinding (rel2 ++ "/" ++ n2) n2 by
      rw [fileStep_reg hig2 hls2 hreg]]
    rw [hkey]
    by_cases hex : st.mode &&& 0o111 ≠ 0 <;> by_cases hz0 : st.size = 0 <;>
      by_cases hgt : 20480 < st.size <;> by_cases hbc : bannedChars n2 = [] <;>
        simp [hex, hz0, hgt, hbc, bannedFinding, List.count_append, List.count_cons]
  have hzero : ∀ rel2 n2, rel2 ++ "/" ++ n2 ≠ t.1 ++ "/" ++ name →
      (fileStep cfg fs rel2 n2).1.count
        (Finding.SizeViolation (t.1 ++ "/" ++ name) st.size) = 0 := by
    intro rel2 n2 hkey
    apply List.count_eq_zero.mpr
    intro hmem
    rcases mem_fileStep hmem with ⟨_, st2, _, _, hshape⟩
    rcases hshape with ⟨he, _⟩ | ⟨he, _⟩ | ⟨he, _⟩ | ⟨he, _⟩
    · exact absurd he (by simp)
    · exact absurd he (by simp)
    · injection he with hp _
      exact hkey hp.symm
    · exact absurd he (by simp)
  constructor
  · intro s2
    constructor
    · intro hmem
      rcases mem_feed_success_src hpls h1 h2 hmem with h | h | h | h
      · rcases h with ⟨n, _, hfd⟩
        rcases mem_entryScan hfd with ⟨_, hshape⟩
        rcases hshape with ⟨_, _, _, _, he⟩ | ⟨_, he⟩ | ⟨_, _, _, _, _, he⟩ <;>
          exact absurd he (by simp)
      · rcases mem_aggrFindings h with ⟨l, he⟩ | ⟨l, he⟩ | ⟨l, he⟩ <;>
          exact absurd he (by simp)
      · rcases h with ⟨t2, _, n2, _, hfd⟩
        rcases mem_fileStep hfd with ⟨_, st2, hls2, _, hshape⟩
        rcases hshape with ⟨he, _⟩ | ⟨he, _⟩ | ⟨he, hgt, _⟩ | ⟨he, _⟩
        · exact absurd he (by simp)
        · exact absurd he (by simp)
        · injection he with hpath hsz
          rw [← hpath] at hls2
          rw [hls] at hls2
          injection hls2 with hst
          rw [← hst] at hgt
          rw [← hst] at hsz
          exact ⟨hsz, hgt⟩
        · exact absurd he (by simp)
      · rcases mem_dupFindings h with ⟨g2, _, _, he⟩
        exact absurd he (by simp)
    · rintro ⟨rfl, hgt⟩
      refine feed_mem_walk hsucc ht hn ?_
      rw [show (fileStep cfg fs t.1 name).1 =
          (if st.mode &&& 0o111 ≠ 0 then [Finding.ExecutableFile (t.1 ++ "/" ++ name)] else [])
          ++ (if st.size = 0 then [Finding.EmptyFile (t.1 ++ "/" ++ name)]
              else if 20480 < st.size
              then [Finding.SizeViolation (t.1 ++ "/" ++ name) st.size] else [])
          ++ bannedFinding (t.1 ++ "/" ++ name) name by
        rw [fileStep_reg hig hls hreg]]
      apply List.mem_append.mpr
      left
      apply List.mem_append.mpr
      right
      have hz0 : ¬ st.size = 0 := by omega
      rw [if_neg hz0, if_pos hgt]
      simp
  · rw [feed_of_success hpls h1 h2]
    simp only
    rw [List.count_append, List.count_append, List.count_append]
    have hA : (scanEntries cfg fs entries).1.count
        (Finding.SizeViolation (t.1 ++ "/" ++ name) st.size) = 0 := by
      apply List.count_eq_zero.mpr
      intro hmem
      rcases mem_scanEntries_src hmem with ⟨n, _, hfd⟩
      rcases mem_entryScan hfd with ⟨_, hshape⟩
      rcases hshape with ⟨_, _, _, _, he⟩ | ⟨_, he⟩ | ⟨_, _, _, _, _, he⟩ <;>
        exact absurd he (by simp)
    have hB : (aggrFindings (scanEntries cfg fs entries).2.1
        (scanEntries cfg fs entries).2.2.1 (scanEntries cfg fs entries).2.2.2.1).count
        (Finding.SizeViolation (t.1 ++ "/" ++ name) st.size) = 0 := by
      apply List.count_eq_zero.mpr
      intro hmem
      rcases mem_aggrFindings hmem with ⟨l, he⟩ | ⟨l, he⟩ | ⟨l, he⟩ <;>
        exact absurd he (by simp)
    have hD : (dupFindings cfg.pkgPath fs.digest
        (groupBySize (processTriples cfg fs (treeTriples fs)).2.1)).count
        (Finding.SizeViolation (t.1 ++ "/" ++ name) st.size) = 0 := by
      apply List.count_eq_zero.mpr
      intro hmem
      rcases mem_dupFindings hmem with ⟨g2, _, _, he⟩
      exact absurd he (by simp)
    have hC : (processTriples cfg fs (treeTriples fs)).1.count
        (Finding.SizeViolation (t.1 ++ "/" ++ name) st.size)
        = if 20480 < st.size then 1 else 0 := by
      rw [processTriples_pairs ((processTriples_err_none_iff cfg fs (treeTriples fs)).mp h2)]
      rw [count_flatMap]
      have ha0 : ((t.1, name) : String × String) ∈ walkPairs fs :=
        List.mem_flatMap.mpr ⟨t, ht, List.mem_map.mpr ⟨name, hn, rfl⟩⟩
      have hnd2 : ((walkPairs fs).map (fun pr => pr.1 ++ "/" ++ pr.2)).Nodup := hnd
      have hsingle := sum_map_eq_single
        (fun pr => (fileStep cfg fs pr.1 pr.2).1.count
          (Finding.SizeViolation (t.1 ++ "/" ++ name) st.size))
        (fun pr => pr.1 ++ "/" ++ pr.2)
        (walkPairs fs) (t.1, name) ha0 hnd2
        (fun pr _ hne => hzero pr.1 pr.2 hne)
        (fun pr _ heq => by
          show (fileStep cfg fs pr.1 pr.2).1.count
              (Finding.SizeViolation (t.1 ++ "/" ++ name) st.size)
            = (fileStep cfg fs (t.1, name).1 (t.1, name).2).1.count
              (Finding.SizeViolation (t.1 ++ "/" ++ name) st.size)
          rw [hcnt pr.1 pr.2 heq, hcnt (t.1, name).1 (t.1, name).2 rfl])
      rw [show ((treeTriples fs).flatMap (fun t => t.2.map (fun n => (t.1, n))))
          = walkPairs fs from rfl]
      rw [hsingle]
      exact hcnt (t.1, name).1 (t.1, name).2 rfl
    rw [hA, hB, hC, hD]
    omega

/-- C6, witness: a 20481-byte file yields exactly one SizeViolation
carrying 20481; a 20480-byte file yields none. -/
theorem c6_witness :
    (feed exCfg exFSC6a).1.count
      (Finding.SizeViolation ("files" ++ "/" ++ "big") 20481) = 1
    ∧ ∀ s2, Finding.SizeViolation ("files" ++ "/" ++ "big") s2 ∉ (feed exCfg exFSC6b).1 := by
  constructor
  · have h := (c6_size_threshold exCfg exFSC6a ("files", ["big"]) "big" ⟨0o100644, 20481⟩
      (by decide) (by decide) rfl rfl (by decide) rfl (by decide)).2
    simpa using h
  · intro s2 hmem
    have h := ((c6_size_threshold exCfg exFSC6b ("files", ["big"]) "big" ⟨0o100644, 20480⟩
      (by decide) (by decide) rfl rfl (by decide) rfl (by decide)).1 s2).mp hmem
    exact absurd h.2 (by decide)

/-- C10: every finding of the files subtree walk and of the duplicate
pass refers only to paths of non-ignored entries whose lstat marks them
as regular files; symlinks, other non-regular entries and subdirectory
names produce no findings in these passes. -/
theorem c10_regular_only :
    ∀ (cfg : Cfg) (fs : FS) (fd : Finding),
      fd ∈ (processTriples cfg fs (treeTriples fs)).1
        ++ dupFindings cfg.pkgPath fs.digest
            (groupBySize (processTriples cfg fs (treeTriples fs)).2.1) →
      ∀ p ∈ mentions fd,
        ∃ t ∈ treeTriples fs, ∃ n ∈ t.2, p = t.1 ++ "/" ++ n
          ∧ fs.gitignored (cfg.pkgPath ++ "/" ++ p) = false
          ∧ ∃ st, fs.lstat (cfg.pkgPath ++ "/" ++ p) = .ok st ∧ isReg st.mode = true := by
  intro cfg fs fd hmem p hp
  rcases List.mem_append.mp hmem with h | h
  · rcases mem_processTriples_src h with ⟨t2, ht2, n2, hn2, hfd⟩
    rcases mem_fileStep hfd with ⟨hig2, st2, hls2, hreg2, hshape⟩
    have hpath : p = t2.1 ++ "/" ++ n2 := by
      rcases hshape with ⟨he, _⟩ | ⟨he, _⟩ | ⟨he, _⟩ | ⟨he, _⟩ <;>
        (subst he; simp only [mentions, List.mem_singleton] at hp; exact hp)
    subst hpath
    exact ⟨t2, ht2, n2, hn2, rfl, hig2, st2, hls2, hreg2⟩
  · rcases mem_dupFindings h with ⟨g2, hg2, _, he⟩
    subst he
    simp only [mentions] at hp
    have hp2 : p ∈ g2.2 := mem_sortStrs.mp hp
    have hb : bucket g2.1 (filesByDigest cfg.pkgPath fs.digest
        (groupBySize (processTriples cfg fs (treeTriples fs)).2.1)) = g2.2 :=
      bucket_of_mem hg2 (nodup_keys_filesByDigest _ _ _)
    rw [bucket_filesByDigest] at hb
    rw [← hb] at hp2
    have hcall : p ∈ digestCalls
        (groupBySize (processTriples cfg fs (treeTriples fs)).2.1) :=
      (List.mem_filter.mp hp2).1
    rcases mem_digestCalls_groupBySize.mp hcall with ⟨s2, hrec, _⟩
    rcases mem_processTriples_rec_src hrec with ⟨t2, ht2, n2, hn2, hstep⟩
    rcases mem_fileStep_rec hstep with ⟨hpath, hig2, st2, hls2, hreg2, _, _⟩
    subst hpath
    exact ⟨t2, ht2, n2, hn2, rfl, hig2, st2, hls2, hreg2⟩

/-- C10, witness: the executable regular file next to a symlink and a
subdirectory is traced back to a regular, non-ignored walk entry. -/
theorem c10_witness :
    ∃ t ∈ treeTriples exFSC10, ∃ n ∈ t.2,
      ("files" ++ "/" ++ "f1") = t.1 ++ "/" ++ n
      ∧ exFSC10.gitignored (exCfg.pkgPath ++ "/" ++ ("files" ++ "/" ++ "f1")) = false
      ∧ ∃ st, exFSC10.lstat (exCfg.pkgPath ++ "/" ++ ("files" ++ "/" ++ "f1")) = .ok st
          ∧ isReg st.mode = true :=
  c10_regular_only exCfg exFSC10 (Finding.ExecutableFile ("files" ++ "/" ++ "f1"))
    (by decide) ("files" ++ "/" ++ "f1") (by decide)

end Pkgdir
